import Mathlib

set_option maxRecDepth 8000

/-!
Verification of the casilocal.es content scripts.

This file gives a shallow embedding of the two offline content pipelines of the
repository — the ingestion script (`scripts/fetch-spots` style file, called
`part_001` here) and the review-refinement script (`part_002`) — and proves the
testable properties of the specification against it.

Modelling conventions:
* JS strings are modelled as `String` / `List Char`; regex operations on them
  are implemented as explicit deterministic scanners that mirror the concrete
  regexes of the source (all of which are backtracking-free on their inputs).
* JS numbers are modelled as `ℚ`.  The only numeric comparisons the scripts
  perform (`skippedCount / places.length > 0.5`, the price table, the random
  author thresholds) are exact at these magnitudes for IEEE doubles, so the
  rational model coincides with the JS semantics; the `0/0 = NaN` and
  `k/0 = Infinity` cases of the duplicate-ratio comparison are modelled
  explicitly in `jsDupRatioGtHalf`.
* Network calls (Google Places, Groq) and `Math.random` are modelled as
  oracle functions carried in an environment record: the pipeline logic is
  translated from the source, the external responses are universally
  quantified.
* `String.prototype.toLowerCase` and `String.prototype.normalize('NFD')` are
  Unicode-table functions; they are modelled as parameters `lower` and `nfd`
  of `slugify`, about which the theorems assume only the documented fact that
  both are the identity on strings of lowercase ASCII alphanumerics and
  hyphens (NFD is the identity on ASCII, and lowercasing fixes lowercase
  ASCII).
* The file system is modelled by recording the performed writes, and the JSON
  ledger files by the lists they serialize: `JSON.parse ∘ JSON.stringify` is
  the identity on these arrays of flat string records.
-/

namespace Casilocal

/-- JS whitespace class: the character set matched by the regex class `\s` and
stripped by `String.prototype.trim` (tab..carriage-return, space, NBSP, Ogham
space, the Unicode space separators, line/paragraph separator, narrow NBSP,
medium mathematical space, ideographic space, BOM). -/
def isJsWs (c : Char) : Bool :=
  c.toNat = 9 || c.toNat = 10 || c.toNat = 11 || c.toNat = 12 || c.toNat = 13 ||
  c.toNat = 32 || c.toNat = 0xa0 || c.toNat = 0x1680 ||
  (decide (0x2000 ≤ c.toNat) && decide (c.toNat ≤ 0x200a)) ||
  c.toNat = 0x2028 || c.toNat = 0x2029 || c.toNat = 0x202f || c.toNat = 0x205f ||
  c.toNat = 0x3000 || c.toNat = 0xfeff

/-- Model of JS `String.prototype.trim` on a character list. -/
def jsTrim (l : List Char) : List Char :=
  ((l.dropWhile isJsWs).reverse.dropWhile isJsWs).reverse

/-- JS `x || d` for an optional string `x`: `undefined` and the empty string
are falsy. -/
def jsOrStr (x : Option String) (d : String) : String :=
  match x with
  | some s => if s = "" then d else s
  | none => d

/-- JS `x || d` for an optional number `x`: `undefined` and `0` are falsy. -/
def jsOrNum (x : Option ℚ) (d : ℚ) : ℚ :=
  match x with
  | some v => if v = 0 then d else v
  | none => d

/-- Leftmost-occurrence splitter: `splitFirst pat s = some (pre, post)` when
`s = pre ++ pat ++ post` and `pre` is the shortest such prefix; `none` when
`pat` does not occur in `s`.  This is the semantics of a JS regex search for a
literal pattern. -/
def splitFirst (pat : List Char) : List Char → Option (List Char × List Char)
  | [] => if pat = [] then some ([], []) else none
  | c :: t =>
    if pat.isPrefixOf (c :: t) then some ([], (c :: t).drop pat.length)
    else (splitFirst pat t).map (fun p => (c :: p.1, p.2))

/-- JS `String.prototype.includes` for a literal pattern. -/
def containsSub (pat s : List Char) : Bool :=
  (splitFirst pat s).isSome

/-- JS `s.replace(pat, repl)` for a literal pattern (first occurrence only). -/
def replaceFirstSub (pat repl s : List Char) : List Char :=
  match splitFirst pat s with
  | some (pre, post) => pre ++ repl ++ post
  | none => s

/-! The normalizer: `slugify` and `priceLevelToEuros` from the ingestion
script. -/

/-- Character class `[a-z0-9]` of the slugify regexes (code points 97–122
and 48–57). -/
def isLowerAlnum (c : Char) : Bool :=
  (decide (97 ≤ c.toNat) && decide (c.toNat ≤ 122)) ||
  (decide (48 ≤ c.toNat) && decide (c.toNat ≤ 57))

/-- The `replace(/[̀-ͯ]/g, '')` step of slugify: drop combining
diacritical marks. -/
def stripCombining (l : List Char) : List Char :=
  l.filter (fun c => !(decide (0x300 ≤ c.toNat) && decide (c.toNat ≤ 0x36f)))

/-- The `replace(/[^a-z0-9]+/g, '-')` step of slugify: each maximal run of
characters outside `[a-z0-9]` becomes a single hyphen.  The flag records
whether the scanner is inside such a run. -/
def collapseAux (inRun : Bool) : List Char → List Char
  | [] => []
  | c :: t =>
    if isLowerAlnum c then c :: collapseAux false t
    else if inRun then collapseAux true t
    else '-' :: collapseAux true t

/-- The `replace(/(^-|-$)/g, '')` step of slugify: remove one leading and one
trailing hyphen (the two anchored alternatives each match at most once). -/
def trimEdgeHyphens (l : List Char) : List Char :=
  let l1 := if l.head? = some '-' then l.tail else l
  if l1.getLast? = some '-' then l1.dropLast else l1

/-- Model of `slugify` from the ingestion script:
`text.toLowerCase().normalize('NFD').replace(/[̀-ͯ]/g,'')
.replace(/[^a-z0-9]+/g,'-').replace(/(^-|-$)/g,'')`.
The Unicode-table built-ins `toLowerCase` and `normalize('NFD')` are the
parameters `lower` and `nfd`. -/
def slugify (lower nfd : List Char → List Char) (text : List Char) : List Char :=
  trimEdgeHyphens (collapseAux false (stripCombining (nfd (lower text))))

/-- Acceptor for the regex `^[a-z0-9]+(-[a-z0-9]+)*$` as a two-state scanner:
`needAlnum` is true at the start and right after a hyphen, where at least one
alphanumeric character is required before accepting or taking a hyphen. -/
def slugPatternAux (needAlnum : Bool) : List Char → Bool
  | [] => !needAlnum
  | c :: t =>
    if isLowerAlnum c then slugPatternAux false t
    else if c = '-' && !needAlnum then slugPatternAux true t
    else false

/-- Membership in the language of `^[a-z0-9]+(-[a-z0-9]+)*$`. -/
def slugPattern (l : List Char) : Bool :=
  slugPatternAux true l

/-- Well-formedness scanner used in the slugify proofs: all characters are in
`[a-z0-9-]` and no two hyphens are adjacent; `prevHyphen` records whether the
previous character was a hyphen. -/
def okAfter (prevHyphen : Bool) : List Char → Bool
  | [] => true
  | c :: t =>
    if isLowerAlnum c then okAfter false t
    else if c = '-' then !prevHyphen && okAfter true t
    else false

/-- Model of `priceLevelToEuros` from the ingestion script.  The JS source is
`mapping[priceLevel] || 2.5`; since `||` treats the number `0` as falsy, the
table entry `PRICE_LEVEL_FREE: 0` is replaced by the default — this quirk is
modelled by `jsOrNum`. -/
def priceLevelToEuros (priceLevel : Option String) : ℚ :=
  let lookup : Option ℚ :=
    match priceLevel with
    | none => none
    | some s =>
      if s = "PRICE_LEVEL_FREE" then some 0
      else if s = "PRICE_LEVEL_INEXPENSIVE" then some (9/5)
      else if s = "PRICE_LEVEL_MODERATE" then some (5/2)
      else if s = "PRICE_LEVEL_EXPENSIVE" then some (7/2)
      else if s = "PRICE_LEVEL_VERY_EXPENSIVE" then some (9/2)
      else none
  jsOrNum lookup (5/2)

/-! MDX parsing and rebuilding, from the refinement script. -/

/-- The frontmatter delimiter searched for by `parseMdx`. -/
def fmDelim : List Char := '\n' :: '-' :: '-' :: '-' :: '\n' :: []

/-- The leading `---` line required by `parseMdx`. -/
def fmOpen : List Char := '-' :: '-' :: '-' :: '\n' :: []

/-- Model of `parseMdx`: `content.match(/^---\n([\s\S]*?)\n---\n([\s\S]*)$/)`,
returning `(frontmatter, body.trim())`, or `none` (the thrown
`Invalid MDX format` error) when the regex does not match.  The lazy group
takes the text before the first occurrence of `\n---\n` after the opening
line. -/
def parseMdx (content : List Char) : Option (List Char × List Char) :=
  if fmOpen.isPrefixOf content then
    match splitFirst fmDelim (content.drop 4) with
    | some (fm, rest) => some (fm, jsTrim rest)
    | none => none
  else none

/-- Matcher for the field regexes of the refinement script at the start of a
string: `key` then `\s*` then `"` then a run of non-quote characters then `"`.
With `allowEmptyVal := true` this is `key\s*"[^"]*"` (used by `buildMdx`);
with `false` it is `key\s*"[^"]+"` (used for title/neighborhood extraction).
Returns `(matchedText, capturedValue, rest)`. -/
def matchField (key : List Char) (allowEmptyVal : Bool) (s : List Char) :
    Option (List Char × List Char × List Char) :=
  if key.isPrefixOf s then
    let afterKey := s.drop key.length
    let ws := afterKey.takeWhile isJsWs
    let r2 := afterKey.dropWhile isJsWs
    if r2.head? = some '"' then
      let r3 := r2.tail
      let v := r3.takeWhile (fun c => c ≠ '"')
      let r4 := r3.dropWhile (fun c => c ≠ '"')
      if r4.head? = some '"' then
        if !allowEmptyVal && v.isEmpty then none
        else some (key ++ ws ++ '"' :: (v ++ '"' :: []), v, r4.tail)
      else none
    else none
  else none

/-- Leftmost-match scan: try the matcher at every position from the left,
returning the text before the first match together with the match data.  This
is how a JS regex `match`/`replace` locates its (first) match. -/
def scanFind (m : List Char → Option (List Char × List Char × List Char)) :
    List Char → Option (List Char × (List Char × List Char × List Char))
  | [] => none
  | c :: t =>
    match m (c :: t) with
    | some r => some ([], r)
    | none => (scanFind m t).map (fun p => (c :: p.1, p.2))

/-- JS `s.replace(regex, repl)` for the field regexes: replace the first match
(`repl` receives the matched text, so both a plain replacement and a `$1`
back-reference can be expressed); the string is unchanged when there is no
match.  Dollar escapes inside the replacement string are not modelled: the
replacement strings of the source contain `$` only as the `$1`
back-reference, and all theorems restrict the injected author value to
alphanumeric/hyphen characters. -/
def scanReplace (m : List Char → Option (List Char × List Char × List Char))
    (repl : List Char → List Char) (s : List Char) : List Char :=
  match scanFind m s with
  | some (pre, (matched, _, rest)) => pre ++ repl matched ++ rest
  | none => s

/-- The `author:` key of the frontmatter regexes. -/
def authorKey : List Char := 'a' :: 'u' :: 't' :: 'h' :: 'o' :: 'r' :: ':' :: []

/-- The `title:` key of the frontmatter regexes. -/
def titleKey : List Char := 't' :: 'i' :: 't' :: 'l' :: 'e' :: ':' :: []

/-- The replacement text `author: "a"` built by `buildMdx`. -/
def authorRepl (author : List Char) : List Char :=
  authorKey ++ ' ' :: '"' :: (author ++ '"' :: [])

/-- Frontmatter patch of `buildMdx`: when `author` is truthy (non-empty),
replace the first `author:\s*"[^"]*"` with `author: "a"` if the frontmatter
contains the substring `author:`, otherwise append `\nauthor: "a"` after the
first `title:\s*"[^"]*"` (the `$1\nauthor: "a"` replacement). -/
def buildMdxFm (fm author : List Char) : List Char :=
  if author = [] then fm
  else if containsSub authorKey fm then
    scanReplace (matchField authorKey true) (fun _ => authorRepl author) fm
  else
    scanReplace (matchField titleKey true) (fun m => m ++ '\n' :: authorRepl author) fm

/-- Model of `buildMdx`: `` `---\n${newFrontmatter}\n---\n\n${body}\n` ``. -/
def buildMdx (fm body author : List Char) : List Char :=
  fmOpen ++ buildMdxFm fm author ++ fmDelim ++ '\n' :: (body ++ '\n' :: [])

/-- First `author:\s*"[^"]*"` field value of a frontmatter block (how a reader
of the produced header interprets its author field). -/
def extractAuthorValue (fm : List Char) : Option (List Char) :=
  match scanFind (matchField authorKey true) fm with
  | some (_, (_, v, _)) => some v
  | none => none

/-- First `title:\s*"([^"]+)"` field value of a frontmatter block, as used by
the refinement script to recover the spot name. -/
def extractTitleValue (fm : List Char) : Option (List Char) :=
  match scanFind (matchField titleKey false) fm with
  | some (_, (_, v, _)) => some v
  | none => none

/-- The first four characters of the frontmatter delimiter (used in the
parsing proofs: an occurrence of the delimiter straddling the frontmatter's
end begins with these). -/
def fmDelim4 : List Char := '\n' :: '-' :: '-' :: '-' :: []

/-- Characters allowed in an injected author value by the round-trip
theorems: ASCII alphanumerics and hyphens (the five authors of the source
are of this shape).  This keeps the value free of quotes, newlines and
replacement-string dollar escapes. -/
def authorCharOk (c : Char) : Bool :=
  c.isAlphanum || c = '-'

/-- A well-formed injected author value: non-empty and of allowed
characters. -/
def authorWordOk (a : List Char) : Bool :=
  (decide (a ≠ [])) && a.all authorCharOk

/-- Frontmatter shapes on which `buildMdx` actually patches an author field:
either the author-field regex matches somewhere (the replace branch), or the
substring `author:` is absent and the title-field regex matches somewhere
(the insert branch). -/
def fmPatchable (fm : List Char) : Prop :=
  (scanFind (matchField authorKey true) fm).isSome = true ∨
  (containsSub authorKey fm = false ∧
    (scanFind (matchField titleKey true) fm).isSome = true)

/-! The ingestion pipeline (`part_001`). -/

/-- Discovery candidate: the fields of a Google Places `places[i]` record that
the script consumes.  `rating` and `reviews` are only forwarded to the Groq
synthesis oracle. -/
structure Place where
  displayName : Option String
  googleMapsUri : Option String
  formattedAddress : Option String
  priceLevel : Option String
  rating : Option ℚ
  reviews : List String
  location : Option (ℚ × ℚ)
deriving DecidableEq

/-- Result of `synthesizeReview` (whether from Groq JSON, or from either of
its deterministic fallbacks). -/
structure Synthesis where
  wifi_speed : String
  noise_level : String
  plug_access : Bool
  casi_score : ℚ
  review : String
deriving DecidableEq

/-- Ingestion ledger entry, as pushed onto `processedSpots`. -/
structure Entry where
  uri : String
  name : String
  neighborhood : String
  slug : String
  processedAt : String
deriving DecidableEq

/-- Venue record content written by `generateMdx`: the interpolated values of
the frontmatter template plus the body.  (The textual layout of the template
is fixed; the record captures exactly its variable parts.) -/
structure MdxContent where
  title : String
  author : String
  neighborhood : String
  wifi_speed : String
  noise_level : String
  plug_access : Bool
  coffee_price : ℚ
  casi_score : ℚ
  lat : ℚ
  long : ℚ
  body : String
deriving DecidableEq

/-- Oracle environment of one ingestion run: the Unicode built-ins used by
`slugify`, the Groq helpers (each modelled as the final value the helper
returns after its own trimming/fallback logic, since every helper catches its
errors and returns a plain string or object), and the timestamp. -/
structure Env where
  lower : List Char → List Char
  nfd : List Char → List Char
  inferNeighborhood : String → String → String
  cleanCafeName : String → String
  synthesize : String → List String → Option ℚ → Synthesis
  now : String

/-- String-level slugify with the run's Unicode built-ins. -/
def slugifyS (env : Env) (s : String) : String :=
  String.mk (slugify env.lower env.nfd s.data)

/-- Model of `generateMdx`: compute the slug
`slugify(neighborhood) ++ "-" ++ slugify(title)` and the venue-record content.
JS `||` defaults are modelled by `jsOrStr`/`jsOrNum` (note `location.latitude
|| 40.416775` would also replace an exact-zero coordinate). -/
def generateMdx (env : Env) (place : Place) (syn : Synthesis)
    (neighborhood cleanName : String) : String × MdxContent :=
  let title := jsOrStr (some cleanName) (jsOrStr place.displayName "Unknown Cafe")
  let slug := slugifyS env neighborhood ++ "-" ++ slugifyS env title
  let lat := jsOrNum (place.location.map Prod.fst) (40416775 / 1000000)
  let long := jsOrNum (place.location.map Prod.snd) (-370379 / 100000)
  (slug,
    { title := title
      author := "murad-madi"
      neighborhood := neighborhood
      wifi_speed := syn.wifi_speed
      noise_level := syn.noise_level
      plug_access := syn.plug_access
      coffee_price := priceLevelToEuros place.priceLevel
      casi_score := syn.casi_score
      lat := lat
      long := long
      body := syn.review })

/-- Mutable state threaded through `processPlaces`: the in-memory ledger
array `processedSpots`, the `processedUris` set (modelled by list
membership), and the venue-record files written so far. -/
structure PState where
  ledger : List Entry
  uris : List String
  writes : List (String × MdxContent)
deriving DecidableEq

/-- Result of one `processPlaces` call. -/
structure PPResult where
  st : PState
  newCount : Nat
  skippedCount : Nat
  skippedNames : List String
deriving DecidableEq

/-- The `place.googleMapsUri || ''` key of a candidate. -/
def candidateUri (place : Place) : String :=
  jsOrStr place.googleMapsUri ""

/-- The `place.displayName?.text || 'Unknown'` display name of a candidate. -/
def candidateName (place : Place) : String :=
  jsOrStr place.displayName "Unknown"

/-- Enrichment of one new candidate inside the `processPlaces` loop:
neighborhood inference, name cleanup, review synthesis, `generateMdx`; yields
the ledger entry to push and the file to write. -/
def enrichOne (env : Env) (place : Place) : Entry × (String × MdxContent) :=
  let name := candidateName place
  let neighborhood := env.inferNeighborhood name (jsOrStr place.formattedAddress "")
  let cleanName := env.cleanCafeName name
  let syn := env.synthesize cleanName place.reviews place.rating
  let gm := generateMdx env place syn neighborhood cleanName
  (⟨candidateUri place, name, neighborhood, gm.1, env.now⟩, gm)

/-- State update for one new candidate: `writeFileSync`,
`processedSpots.push`, `processedUris.add`. -/
def pushState (env : Env) (place : Place) (st : PState) : PState :=
  ⟨st.ledger ++ [(enrichOne env place).1],
   st.uris ++ [candidateUri place],
   st.writes ++ [(enrichOne env place).2]⟩

/-- Model of `processPlaces`: for each place in order, skip it (counting it
and recording its name) when its `googleMapsUri || ''` is already in the uri
set; otherwise enrich it, write one venue-record file, push one ledger entry
and add its uri to the set. -/
def processPlaces (env : Env) : List Place → PState → PPResult
  | [], st => ⟨st, 0, 0, []⟩
  | place :: rest, st =>
    if candidateUri place ∈ st.uris then
      let r := processPlaces env rest st
      ⟨r.st, r.newCount, r.skippedCount + 1, candidateName place :: r.skippedNames⟩
    else
      let r := processPlaces env rest (pushState env place st)
      ⟨r.st, r.newCount + 1, r.skippedCount, r.skippedNames⟩

/-- Names seeded into the query-suggestion prompt at the call site in `main`:
`[...processedNames, ...skippedNames]`. -/
def mainSuggestNames (processedNames skippedNames : List String) : List String :=
  processedNames ++ skippedNames

/-- Model of the prompt built by `suggestNewQuery`: the template with the
current query and `processedNames.slice(0, 15).join('\n')` interpolated. -/
def suggestNewQueryPrompt (originalQuery : String) (processedNames : List String) :
    List Char :=
  ("You are helping find NEW specialty coffee cafes in Madrid for remote workers.\n\nOriginal search query: \"").data
  ++ originalQuery.data
  ++ ("\"\n\nWe already have these spots in our database:\n").data
  ++ List.intercalate ('\n' :: []) ((processedNames.take 15).map String.data)
  ++ ("\n\nSuggest ONE new Google Maps search query that will find DIFFERENT cafes we don't have yet. Try:\n- Different neighborhoods (Argüelles, Retiro, Tetuán, Vallecas, etc.)\n- Different angles (\"coworking cafes\", \"quiet cafes with wifi\", \"laptop friendly brunch spots\")\n- Specific areas (\"cafes near Calle Fuencarral\", \"coffee shops in Chamartín\")\n\nRespond with ONLY the search query text, no explanation. Keep it under 10 words.").data

/-- JS comparison `skippedCount / places.length > 0.5`.  With `total = 0` the
JS division yields `NaN` (for `0/0`; any comparison with `NaN` is false) or
`Infinity` (for `k/0`, which exceeds `0.5`); with `total > 0` the comparison
of the rounded double quotient against `0.5` agrees with the exact rational
comparison `2 * skipped > total` at these magnitudes. -/
def jsDupRatioGtHalf (skipped total : Nat) : Bool :=
  if total = 0 then decide (skipped ≠ 0) else decide (2 * skipped > total)

/-- Retry bound of the ingestion `main`. -/
def MAX_RETRIES : Nat := 3

/-- Default query of the ingestion `main`. -/
def defaultQuery : String := "Laptop friendly specialty coffee madrid"

/-- One environment round of the retry loop: the places returned by the
discovery call, and the final value `suggestNewQuery` would return if called
(`none` models the caught network error returning `null`; the string is the
already-postprocessed completion). -/
structure Round where
  places : List Place
  suggestResp : Option String

/-- Externally visible pipeline events, in order: a discovery call, a
query-suggestion call (recording the query and the seeded names), and a
ledger write to the store. -/
inductive Event where
  | discover (query : String)
  | suggest (query : String) (names : List String)
  | save (ledger : List Entry)
deriving DecidableEq

/-- Recognizer for ledger-store writes in an event trace. -/
def Event.isSave : Event → Bool
  | Event.save _ => true
  | _ => false

/-- Outcome of an ingestion run. -/
structure RunResult where
  events : List Event
  ledger : List Entry
  writes : List (String × MdxContent)
  totalNew : Nat
  totalSkipped : Nat
  retryCount : Nat
deriving DecidableEq

/-- Loop exit of `main`: the single `saveProcessedSpots` call after the
`while` loop. -/
def finishRun (st : PState) (tn ts rc : Nat) : RunResult :=
  ⟨[Event.save st.ledger], st.ledger, st.writes, tn, ts, rc⟩

/-- Prepend events to a run outcome. -/
def prependEvents (es : List Event) (r : RunResult) : RunResult :=
  { r with events := es ++ r.events }

/-- Model of the `while (retryCount < MAX_RETRIES)` loop of the ingestion
`main`, from the state at the top of an iteration.  `pn` is the (fixed)
`processedNames` list, `i` indexes the environment rounds, and `fuel` is
`MAX_RETRIES - retryCount`, which decreases at each `continue`. -/
def runFrom (env : Env) (rounds : Nat → Round) (pn : List String) :
    String → Nat → PState → Nat → Nat → Nat → Nat → RunResult
  | _, retryCount, st, tn, ts, _, 0 => finishRun st tn ts retryCount
  | query, retryCount, st, tn, ts, i, fuel + 1 =>
    let r := rounds i
    let res := processPlaces env r.places st
    let tn' := tn + res.newCount
    let ts' := ts + res.skippedCount
    if jsDupRatioGtHalf res.skippedCount r.places.length
        && decide (res.newCount < 5) && decide (retryCount < MAX_RETRIES - 1) then
      let names := mainSuggestNames pn res.skippedNames
      let contQ : Option String :=
        match r.suggestResp with
        | some nq => if nq ≠ "" ∧ nq ≠ query then some nq else none
        | none => none
      match contQ with
      | some nq =>
        prependEvents [Event.discover query, Event.suggest query names]
          (runFrom env rounds pn nq (retryCount + 1) res.st tn' ts' (i + 1) fuel)
      | none =>
        prependEvents [Event.discover query, Event.suggest query names]
          (finishRun res.st tn' ts' retryCount)
    else
      prependEvents [Event.discover query] (finishRun res.st tn' ts' retryCount)

/-- Model of the ingestion `main`: load the ledger (`argQuery` is
`process.argv[2]`), build the uri set and name list, run the retry loop, and
save once at the end (the save is the trailing `Event.save` emitted by
`finishRun`). -/
def mainModel (env : Env) (rounds : Nat → Round) (argQuery : Option String)
    (init : List Entry) : RunResult :=
  let query := jsOrStr argQuery defaultQuery
  let st : PState := ⟨init, init.map Entry.uri, []⟩
  runFrom env rounds (init.map Entry.name) query 0 st 0 0 0 MAX_RETRIES

/-- Ledger store, ingestion side: the file either holds a serialized entry
list or is absent/corrupt.  `loadProcessedSpots` returns `[]` in the latter
case; `saveProcessedSpots` rewrites the file wholesale. -/
def loadProcessedSpots (file : Option (List Entry)) : List Entry :=
  file.getD []

/-- Full rewrite of the ingestion ledger file. -/
def saveProcessedSpots (spots : List Entry) : Option (List Entry) :=
  some spots

/-! The refinement pipeline (`part_002`). -/

/-- Refinement ledger entry, as pushed onto `refinedSpots`. -/
structure REntry where
  filename : String
  spotName : String
  refinedAt : String
deriving DecidableEq

/-- Oracle environment of one refinement run: file contents by name, the
`Math.random()` samples (one per processed file), the trimmed Groq rewrite
completions, whether the k-th Groq call succeeds (a thrown error is caught by
the per-file handler), and the timestamp. -/
structure REnv where
  fileContents : String → String
  rand : Nat → ℚ
  refineResp : Nat → String
  refineOk : Nat → Bool
  now : String

/-- Model of `selectRandomAuthor`: cumulative thresholds over one uniform
sample (40% murad, then 15% each). -/
def selectRandomAuthor (r : ℚ) : String :=
  if r < 2/5 then "murad"
  else if r < 11/20 then "isabella"
  else if r < 7/10 then "mikelia"
  else if r < 17/20 then "sara"
  else "robert"

/-- Heading normalization at the end of `refineReview`: prepend a default
heading when the completion does not start with `##`. -/
def normalizeRefined (resp : String) : String :=
  if ('#' :: '#' :: []).isPrefixOf resp.data then resp
  else "## The Vibe\n\n" ++ resp

/-- Model of one iteration body of the refinement loop (the `try` block):
read and parse the file, extract the spot name, draw an author, refine the
body, rebuild with `buildMdx` and write.  Returns the ledger entry data and
the written content, or `none` when the iteration threw (parse failure or a
failed Groq call) and the error was caught. -/
def refineOne (env : REnv) (k : Nat) (filename : String) :
    Option (String × List Char) :=
  match parseMdx (env.fileContents filename).data with
  | none => none
  | some (fm, body) =>
    let spotName :=
      match extractTitleValue fm with
      | some v => String.mk v
      | none => String.mk (replaceFirstSub (".mdx").data [] filename.data)
    let author := selectRandomAuthor (env.rand k)
    if env.refineOk k then
      let refined := normalizeRefined (env.refineResp k)
      let _ := body
      some (spotName, buildMdx fm refined.data author.data)
    else none

/-- The refinement loop over the selected files: on success append one ledger
entry (and persist — the ledger list after each step is exactly what
`saveRefinedSpots` writes), record the file write, and continue; on a caught
error continue unchanged. -/
def refineLoop (env : REnv) :
    List String → Nat → List REntry → List (String × List Char) →
    List REntry × List (String × List Char)
  | [], _, ledger, writes => (ledger, writes)
  | f :: fs, k, ledger, writes =>
    match refineOne env k f with
    | some (sn, content) =>
        refineLoop env fs (k + 1) (ledger ++ [⟨f, sn, env.now⟩])
          (writes ++ [(f, content)])
    | none => refineLoop env fs (k + 1) ledger writes

/-- Model of the refinement `main` in batch mode: select the `.mdx` files
that are not `example-spot.mdx` and not yet in the refinement ledger, then
run the loop. -/
def refineMain (env : REnv) (dirListing : List String) (init : List REntry) :
    List REntry × List (String × List Char) :=
  let files := (dirListing.filter (fun f => f.endsWith ".mdx")).filter
    (fun f => f ≠ "example-spot.mdx")
  let refinedSet := init.map REntry.filename
  let filesToProcess := files.filter (fun f => f ∉ refinedSet)
  refineLoop env filesToProcess 0 init []

/-- Ledger store, refinement side: load with the absent/corrupt fallback. -/
def loadRefinedSpots (file : Option (List REntry)) : List REntry :=
  file.getD []

/-- Full rewrite of the refinement ledger file. -/
def saveRefinedSpots (spots : List REntry) : Option (List REntry) :=
  some spots

/-! Concrete fixtures used by the witness theorems. -/

/-- Concrete ingestion environment: identity Unicode built-ins and constant
Groq oracles. -/
def envW : Env :=
  ⟨id, id, fun _ _ => "Centro", fun n => n,
   fun _ _ _ => ⟨"reliable", "hum", true, 7, "## The Vibe\n\nr"⟩, "t1"⟩

/-- A candidate whose uri is already in the ledger below. -/
def oldPlace : Place := ⟨some "Old Cafe", some "u1", none, none, none, [], none⟩

/-- A fresh candidate. -/
def newPlace : Place := ⟨some "New Cafe", some "u2", none, none, none, [], none⟩

/-- A preexisting ledger entry with uri `u1`. -/
def oldEntry : Entry := ⟨"u1", "Old Cafe", "Centro", "centro-old-cafe", "t0"⟩

/-- Pipeline state holding `oldEntry`. -/
def stW : PState := ⟨[oldEntry], ["u1"], []⟩

/-- Fifteen already-known venue names. -/
def knownFifteen : List String :=
  ["Cafe A", "Cafe B", "Cafe C", "Cafe D", "Cafe E", "Cafe F", "Cafe G",
   "Cafe H", "Cafe I", "Cafe J", "Cafe K", "Cafe L", "Cafe M", "Cafe N",
   "Cafe O"]

/-- Round supplier with one all-duplicates round (then empty rounds),
suggesting a distinct query. -/
def roundsW : Nat → Round :=
  fun i => if i = 0 then ⟨[oldPlace], some "coworking cafes Chamberi"⟩ else ⟨[], none⟩

/-- Round supplier whose every round is empty. -/
def roundsEmpty : Nat → Round :=
  fun _ => ⟨[], none⟩

/-- Concrete refinement environment over a one-file store. -/
def renvW : REnv :=
  ⟨fun _ => "---\ntitle: \"T\"\n---\nold body", fun _ => 0,
   fun _ => "## First Impressions\n\nnew", fun _ => true, "t2"⟩

end Casilocal

/-! Theorems.  General list lemmas first, then the per-claim results. -/

namespace Casilocal

theorem mem_intercalate_isInfix {x : List Char} {xs : List (List Char)}
    (s : List Char) (h : x ∈ xs) : x <:+: List.intercalate s xs := by
  induction xs with
  | nil => simp at h
  | cons a t ih =>
    cases t with
    | nil =>
      simp at h
      subst h
      simp [List.intercalate, List.intersperse]
    | cons b t' =>
      have hstep : List.intercalate s (a :: b :: t') =
          a ++ (s ++ List.intercalate s (b :: t')) := by
        simp [List.intercalate, List.intersperse]
      rcases List.mem_cons.mp h with rfl | hmem
      · rw [hstep]
        exact ⟨[], s ++ List.intercalate s (b :: t'), by simp⟩
      · have hin := ih hmem
        rw [hstep]
        rcases hin with ⟨u, v, huv⟩
        exact ⟨a ++ s ++ u, v, by simp [← huv]⟩


theorem processPlaces_cons_skip (env : Env) (p : Place) (rest : List Place)
    (st : PState) (h : candidateUri p ∈ st.uris) :
    processPlaces env (p :: rest) st =
      ⟨(processPlaces env rest st).st, (processPlaces env rest st).newCount,
       (processPlaces env rest st).skippedCount + 1,
       candidateName p :: (processPlaces env rest st).skippedNames⟩ := by
  simp [processPlaces, h]

theorem processPlaces_cons_new (env : Env) (p : Place) (rest : List Place)
    (st : PState) (h : candidateUri p ∉ st.uris) :
    processPlaces env (p :: rest) st =
      ⟨(processPlaces env rest (pushState env p st)).st,
       (processPlaces env rest (pushState env p st)).newCount + 1,
       (processPlaces env rest (pushState env p st)).skippedCount,
       (processPlaces env rest (pushState env p st)).skippedNames⟩ := by
  simp [processPlaces, h]

theorem processPlaces_count (env : Env) (places : List Place) (st : PState) :
    (processPlaces env places st).newCount +
      (processPlaces env places st).skippedCount = places.length := by
  induction places generalizing st with
  | nil => simp [processPlaces]
  | cons p rest ih =>
    by_cases h : candidateUri p ∈ st.uris
    · rw [processPlaces_cons_skip env p rest st h]
      have := ih st
      simp only [List.length_cons]
      omega
    · rw [processPlaces_cons_new env p rest st h]
      have := ih (pushState env p st)
      simp only [List.length_cons]
      omega

theorem processPlaces_decomp (env : Env) (places : List Place) (st : PState) :
    ∃ ne nw,
      (processPlaces env places st).st.ledger = st.ledger ++ ne ∧
      (processPlaces env places st).st.writes = st.writes ++ nw ∧
      (processPlaces env places st).st.uris = st.uris ++ ne.map Entry.uri ∧
      ne.length = (processPlaces env places st).newCount ∧
      nw.length = (processPlaces env places st).newCount ∧
      (ne.map Entry.uri).Nodup ∧
      (∀ u ∈ ne.map Entry.uri, u ∉ st.uris) := by
  induction places generalizing st with
  | nil => exact ⟨[], [], by simp [processPlaces]⟩
  | cons p rest ih =>
    by_cases h : candidateUri p ∈ st.uris
    · rcases ih st with ⟨ne, nw, h1, h2, h3, h4, h5, h6, h7⟩
      rw [processPlaces_cons_skip env p rest st h]
      exact ⟨ne, nw, h1, h2, h3, h4, h5, h6, h7⟩
    · rcases ih (pushState env p st) with ⟨ne, nw, h1, h2, h3, h4, h5, h6, h7⟩
      rw [processPlaces_cons_new env p rest st h]
      have huri : (enrichOne env p).1.uri = candidateUri p := rfl
      refine ⟨(enrichOne env p).1 :: ne, (enrichOne env p).2 :: nw,
        ?_, ?_, ?_, ?_, ?_, ?_, ?_⟩
      · simpa [pushState] using h1
      · simpa [pushState] using h2
      · simpa [pushState, huri] using h3
      · simpa using h4
      · simpa using h5
      · refine List.nodup_cons.mpr ⟨?_, h6⟩
        intro hmem
        rw [huri] at hmem
        exact (h7 _ hmem) (by simp [pushState])
      · intro u hu
        rcases List.mem_cons.mp hu with rfl | hmem
        · rw [huri]; exact h
        · intro hin
          exact (h7 u hmem) (by simp [pushState, hin])

/-- C1: in every `processPlaces` batch the counters satisfy
`newCount + skippedCount = number of candidates`, and the ledger and file
writes grow by exactly `newCount` items, every appended entry having an
external URI that was not in the ledger URI set at the start of the batch —
so a candidate whose URI is already in the set produces neither a
venue-record write nor a ledger append. -/
theorem C1_dedup_batch (env : Env) (places : List Place) (st : PState) :
    (processPlaces env places st).newCount +
        (processPlaces env places st).skippedCount = places.length ∧
    ∃ ne nw,
      (processPlaces env places st).st.ledger = st.ledger ++ ne ∧
      (processPlaces env places st).st.writes = st.writes ++ nw ∧
      ne.length = (processPlaces env places st).newCount ∧
      nw.length = (processPlaces env places st).newCount ∧
      ∀ e ∈ ne, e.uri ∉ st.uris := by
  refine ⟨processPlaces_count env places st, ?_⟩
  rcases processPlaces_decomp env places st with ⟨ne, nw, h1, h2, _, h4, h5, _, h7⟩
  exact ⟨ne, nw, h1, h2, h4, h5, fun e he => h7 e.uri (List.mem_map_of_mem _ he)⟩

/-- Concrete instance of the C1 batch law: one already-processed candidate
and one new candidate. -/
theorem C1_dedup_batch_witness :
    (processPlaces envW [oldPlace, newPlace] stW).newCount +
        (processPlaces envW [oldPlace, newPlace] stW).skippedCount = 2 ∧
    ∃ ne nw,
      (processPlaces envW [oldPlace, newPlace] stW).st.ledger = stW.ledger ++ ne ∧
      (processPlaces envW [oldPlace, newPlace] stW).st.writes = stW.writes ++ nw ∧
      ne.length = (processPlaces envW [oldPlace, newPlace] stW).newCount ∧
      nw.length = (processPlaces envW [oldPlace, newPlace] stW).newCount ∧
      ∀ e ∈ ne, e.uri ∉ stW.uris :=
  C1_dedup_batch envW [oldPlace, newPlace] stW

/-- C2: the price-tier mapping is a total function whose default is 2.5 and
which maps the four paid tiers as the spec states; but on `PRICE_LEVEL_FREE`
the code returns 2.5 rather than the claimed 0, because the JS expression
`mapping[priceLevel] || 2.5` treats the looked-up number 0 as falsy — the
code's own lookup table lists 0 for the free tier, so the `||` default is a
slip in the code. -/
theorem C2_priceLevelToEuros_table :
    priceLevelToEuros (some "PRICE_LEVEL_FREE") = 5/2 ∧
    ¬ priceLevelToEuros (some "PRICE_LEVEL_FREE") = 0 ∧
    priceLevelToEuros (some "PRICE_LEVEL_INEXPENSIVE") = 9/5 ∧
    priceLevelToEuros (some "PRICE_LEVEL_MODERATE") = 5/2 ∧
    priceLevelToEuros (some "PRICE_LEVEL_EXPENSIVE") = 7/2 ∧
    priceLevelToEuros (some "PRICE_LEVEL_VERY_EXPENSIVE") = 9/2 ∧
    priceLevelToEuros none = 5/2 ∧
    priceLevelToEuros (some "unknown-value") = 5/2 := by
  refine ⟨?_, ?_, ?_, ?_, ?_, ?_, ?_, ?_⟩ <;> simp [priceLevelToEuros, jsOrNum]

/-- C4 (amended): the query-suggestion prompt is seeded with the first 15
names of `processedNames ++ skippedNames`, i.e. all known names up to 15 and
then skipped names only into the remaining room; when the total is at most
15, every skipped name of the round does appear in the prompt. -/
theorem C4_prompt_seed_amended (q : String) (known skipped : List String) :
    suggestNewQueryPrompt q (mainSuggestNames known skipped)
      = suggestNewQueryPrompt q
          (known.take 15 ++ skipped.take (15 - known.length)) ∧
    (known.length + skipped.length ≤ 15 →
      ∀ n ∈ skipped,
        n.data <:+: suggestNewQueryPrompt q (mainSuggestNames known skipped)) := by
  constructor
  · have h1 : (mainSuggestNames known skipped).take 15
        = known.take 15 ++ skipped.take (15 - known.length) := by
      rw [mainSuggestNames, List.take_append_eq_append_take]
    have h2 : (known.take 15 ++ skipped.take (15 - known.length)).take 15
        = known.take 15 ++ skipped.take (15 - known.length) := by
      apply List.take_of_length_le
      simp only [List.length_append, List.length_take]
      omega
    simp only [suggestNewQueryPrompt, h1, h2]
  · intro hle n hn
    have hall : (mainSuggestNames known skipped).take 15
        = mainSuggestNames known skipped := by
      apply List.take_of_length_le
      simp only [mainSuggestNames, List.length_append]
      omega
    have hmem : n.data ∈ ((mainSuggestNames known skipped).take 15).map String.data := by
      rw [hall]
      exact List.mem_map_of_mem _ (by simp [mainSuggestNames, hn])
    have hI : List.intercalate ('\n' :: [])
        (((mainSuggestNames known skipped).take 15).map String.data) <:+:
        suggestNewQueryPrompt q (mainSuggestNames known skipped) := ⟨_, _, rfl⟩
    exact (mem_intercalate_isInfix ('\n' :: []) hmem).trans hI

/-- Concrete instance of the amended C4 law. -/
theorem C4_prompt_seed_amended_witness :
    suggestNewQueryPrompt "q" (mainSuggestNames ["Cafe A"] ["Cafe B"])
      = suggestNewQueryPrompt "q"
          ((["Cafe A"] : List String).take 15 ++
            (["Cafe B"] : List String).take (15 - (["Cafe A"] : List String).length)) ∧
    ∀ n ∈ (["Cafe B"] : List String),
      n.data <:+: suggestNewQueryPrompt "q" (mainSuggestNames ["Cafe A"] ["Cafe B"]) :=
  ⟨(C4_prompt_seed_amended "q" ["Cafe A"] ["Cafe B"]).1,
   (C4_prompt_seed_amended "q" ["Cafe A"] ["Cafe B"]).2 (by decide)⟩

theorem runFrom_succ_eq (env : Env) (rounds : Nat → Round) (pn : List String)
    (q : String) (rc : Nat) (st : PState) (tn ts i fuel : Nat) :
    runFrom env rounds pn q rc st tn ts i (fuel + 1) =
      (if jsDupRatioGtHalf (processPlaces env (rounds i).places st).skippedCount
            (rounds i).places.length
          && decide ((processPlaces env (rounds i).places st).newCount < 5)
          && decide (rc < MAX_RETRIES - 1) then
        match (match (rounds i).suggestResp with
               | some nq => if nq ≠ "" ∧ nq ≠ q then some nq else none
               | none => none) with
        | some nq =>
          prependEvents [Event.discover q,
            Event.suggest q (mainSuggestNames pn
              (processPlaces env (rounds i).places st).skippedNames)]
            (runFrom env rounds pn nq (rc + 1)
              (processPlaces env (rounds i).places st).st
              (tn + (processPlaces env (rounds i).places st).newCount)
              (ts + (processPlaces env (rounds i).places st).skippedCount)
              (i + 1) fuel)
        | none =>
          prependEvents [Event.discover q,
            Event.suggest q (mainSuggestNames pn
              (processPlaces env (rounds i).places st).skippedNames)]
            (finishRun (processPlaces env (rounds i).places st).st
              (tn + (processPlaces env (rounds i).places st).newCount)
              (ts + (processPlaces env (rounds i).places st).skippedCount) rc)
      else
        prependEvents [Event.discover q]
          (finishRun (processPlaces env (rounds i).places st).st
            (tn + (processPlaces env (rounds i).places st).newCount)
            (ts + (processPlaces env (rounds i).places st).skippedCount) rc)) :=
  rfl

theorem runFrom_succ_of_cond_false (env : Env) (rounds : Nat → Round)
    (pn : List String) (q : String) (rc : Nat) (st : PState) (tn ts i fuel : Nat)
    (h : (jsDupRatioGtHalf (processPlaces env (rounds i).places st).skippedCount
            (rounds i).places.length
          && decide ((processPlaces env (rounds i).places st).newCount < 5)
          && decide (rc < MAX_RETRIES - 1)) = false) :
    runFrom env rounds pn q rc st tn ts i (fuel + 1) =
      prependEvents [Event.discover q]
        (finishRun (processPlaces env (rounds i).places st).st
          (tn + (processPlaces env (rounds i).places st).newCount)
          (ts + (processPlaces env (rounds i).places st).skippedCount) rc) := by
  rw [runFrom_succ_eq, if_neg]
  simp [h]

theorem runFrom_succ_of_retry (env : Env) (rounds : Nat → Round)
    (pn : List String) (q : String) (rc : Nat) (st : PState) (tn ts i fuel : Nat)
    (nq : String)
    (h : (jsDupRatioGtHalf (processPlaces env (rounds i).places st).skippedCount
            (rounds i).places.length
          && decide ((processPlaces env (rounds i).places st).newCount < 5)
          && decide (rc < MAX_RETRIES - 1)) = true)
    (hr : (rounds i).suggestResp = some nq) (h1 : nq ≠ "") (h2 : nq ≠ q) :
    runFrom env rounds pn q rc st tn ts i (fuel + 1) =
      prependEvents [Event.discover q,
        Event.suggest q (mainSuggestNames pn
          (processPlaces env (rounds i).places st).skippedNames)]
        (runFrom env rounds pn nq (rc + 1)
          (processPlaces env (rounds i).places st).st
          (tn + (processPlaces env (rounds i).places st).newCount)
          (ts + (processPlaces env (rounds i).places st).skippedCount)
          (i + 1) fuel) := by
  rw [runFrom_succ_eq, if_pos (by simp [h]), hr]
  dsimp only
  rw [if_pos ⟨h1, h2⟩]

theorem runFrom_succ_of_stop (env : Env) (rounds : Nat → Round)
    (pn : List String) (q : String) (rc : Nat) (st : PState) (tn ts i fuel : Nat)
    (h : (jsDupRatioGtHalf (processPlaces env (rounds i).places st).skippedCount
            (rounds i).places.length
          && decide ((processPlaces env (rounds i).places st).newCount < 5)
          && decide (rc < MAX_RETRIES - 1)) = true)
    (hstop : (rounds i).suggestResp = none ∨ (rounds i).suggestResp = some "" ∨
      (rounds i).suggestResp = some q) :
    runFrom env rounds pn q rc st tn ts i (fuel + 1) =
      prependEvents [Event.discover q,
        Event.suggest q (mainSuggestNames pn
          (processPlaces env (rounds i).places st).skippedNames)]
        (finishRun (processPlaces env (rounds i).places st).st
          (tn + (processPlaces env (rounds i).places st).newCount)
          (ts + (processPlaces env (rounds i).places st).skippedCount) rc) := by
  rw [runFrom_succ_eq, if_pos (by simp [h])]
  rcases hstop with h0 | h0 | h0 <;> rw [h0] <;> dsimp only
  · rw [if_neg (by simp)]
  · rw [if_neg (by simp)]

theorem runFrom_events_head (env : Env) (rounds : Nat → Round)
    (pn : List String) (q : String) (rc : Nat) (st : PState) (tn ts i fuel : Nat) :
    ∃ t, (runFrom env rounds pn q rc st tn ts i (fuel + 1)).events =
      Event.discover q :: t := by
  by_cases h : (jsDupRatioGtHalf (processPlaces env (rounds i).places st).skippedCount
      (rounds i).places.length
    && decide ((processPlaces env (rounds i).places st).newCount < 5)
    && decide (rc < MAX_RETRIES - 1)) = true
  · rcases h0 : (rounds i).suggestResp with _ | nq
    · rw [runFrom_succ_of_stop env rounds pn q rc st tn ts i fuel h (Or.inl h0)]
      exact ⟨_, rfl⟩
    · by_cases h1 : nq = ""
      · subst h1
        rw [runFrom_succ_of_stop env rounds pn q rc st tn ts i fuel h (Or.inr (Or.inl h0))]
        exact ⟨_, rfl⟩
      · by_cases h2 : nq = q
        · rw [h2] at h0
          rw [runFrom_succ_of_stop env rounds pn q rc st tn ts i fuel h (Or.inr (Or.inr h0))]
          exact ⟨_, rfl⟩
        · rw [runFrom_succ_of_retry env rounds pn q rc st tn ts i fuel nq h h0 h1 h2]
          exact ⟨_, rfl⟩
  · rw [runFrom_succ_of_cond_false env rounds pn q rc st tn ts i fuel
      (Bool.not_eq_true _ ▸ h)]
    exact ⟨_, rfl⟩

/-- C3: at an `EVALUATE_RETRY` step where the duplicate ratio exceeds one
half, fewer than five new items were found and retry budget remains, the
trace shows the discovery call followed by exactly one suggestion request;
when the suggestion is a fresh non-empty query the very next event is the
next discovery call with that query, and when the suggestion is `null`,
empty, or identical to the current query, the loop stops — the only
remaining event is the final ledger save. -/
theorem C3_retry_policy (env : Env) (rounds : Nat → Round) (pn : List String)
    (q : String) (rc : Nat) (st : PState) (tn ts i fuel : Nat)
    (hfuel : rc + (fuel + 1) = MAX_RETRIES)
    (hdup : jsDupRatioGtHalf (processPlaces env (rounds i).places st).skippedCount
      (rounds i).places.length = true)
    (hnew : (processPlaces env (rounds i).places st).newCount < 5)
    (hrc : rc < MAX_RETRIES - 1) :
    ∃ tail,
      (runFrom env rounds pn q rc st tn ts i (fuel + 1)).events =
        Event.discover q ::
          Event.suggest q (mainSuggestNames pn
            (processPlaces env (rounds i).places st).skippedNames) :: tail ∧
      (∀ nq, (rounds i).suggestResp = some nq → nq ≠ "" → nq ≠ q →
        tail = (runFrom env rounds pn nq (rc + 1)
            (processPlaces env (rounds i).places st).st
            (tn + (processPlaces env (rounds i).places st).newCount)
            (ts + (processPlaces env (rounds i).places st).skippedCount)
            (i + 1) fuel).events ∧
          ∃ t2, tail = Event.discover nq :: t2) ∧
      (((rounds i).suggestResp = none ∨ (rounds i).suggestResp = some "" ∨
          (rounds i).suggestResp = some q) →
        tail = [Event.save (processPlaces env (rounds i).places st).st.ledger]) := by
  have hcond : (jsDupRatioGtHalf (processPlaces env (rounds i).places st).skippedCount
        (rounds i).places.length
      && decide ((processPlaces env (rounds i).places st).newCount < 5)
      && decide (rc < MAX_RETRIES - 1)) = true := by
    simp [hdup, hnew, hrc]
  have hfuel1 : ∃ fuel', fuel = fuel' + 1 := by
    rcases fuel with _ | f
    · exfalso
      rw [MAX_RETRIES] at hfuel hrc
      omega
    · exact ⟨f, rfl⟩
  rcases h0 : (rounds i).suggestResp with _ | nq
  · refine ⟨[Event.save (processPlaces env (rounds i).places st).st.ledger], ?_, ?_, ?_⟩
    · rw [runFrom_succ_of_stop env rounds pn q rc st tn ts i fuel hcond (Or.inl h0)]
      rfl
    · intro nq hnq
      exact absurd hnq (by simp)
    · intro
      rfl
  · by_cases h1 : nq = ""
    · subst h1
      refine ⟨[Event.save (processPlaces env (rounds i).places st).st.ledger], ?_, ?_, ?_⟩
      · rw [runFrom_succ_of_stop env rounds pn q rc st tn ts i fuel hcond
          (Or.inr (Or.inl h0))]
        rfl
      · intro nq' hnq' hne _
        exact absurd (Option.some_injective _ hnq').symm hne
      · intro
        rfl
    · by_cases h2 : nq = q
      · rw [h2] at h0
        refine ⟨[Event.save (processPlaces env (rounds i).places st).st.ledger], ?_, ?_, ?_⟩
        · rw [runFrom_succ_of_stop env rounds pn q rc st tn ts i fuel hcond
            (Or.inr (Or.inr h0))]
          rfl
        · intro nq' hnq' _ hneq
          exact absurd ((Option.some_injective _ hnq').symm.trans h2) hneq
        · intro
          rfl
      · refine ⟨(runFrom env rounds pn nq (rc + 1)
            (processPlaces env (rounds i).places st).st
            (tn + (processPlaces env (rounds i).places st).newCount)
            (ts + (processPlaces env (rounds i).places st).skippedCount)
            (i + 1) fuel).events, ?_, ?_, ?_⟩
        · rw [runFrom_succ_of_retry env rounds pn q rc st tn ts i fuel nq hcond h0 h1 h2]
          rfl
        · intro nq' hnq' _ _
          have : nq = nq' := Option.some_injective _ hnq'
          subst this
          refine ⟨rfl, ?_⟩
          rcases hfuel1 with ⟨fuel', rfl⟩
          exact runFrom_events_head env rounds pn nq (rc + 1) _ _ _ _ fuel'
        · intro hstop
          rcases hstop with h0' | h0' | h0'
          · exact absurd h0' (by simp)
          · exact absurd (Option.some_injective _ h0') h1
          · exact absurd (Option.some_injective _ h0') h2

/-- Concrete instance of the C3 retry policy: one all-duplicates round with a
fresh suggestion. -/
theorem C3_retry_policy_witness :
    ∃ tail,
      (runFrom envW roundsW ["Old Cafe"] defaultQuery 0
          ⟨[oldEntry], ["u1"], []⟩ 0 0 0 (2 + 1)).events =
        Event.discover defaultQuery ::
          Event.suggest defaultQuery (mainSuggestNames ["Old Cafe"]
            (processPlaces envW (roundsW 0).places ⟨[oldEntry], ["u1"], []⟩).skippedNames)
            :: tail ∧
      (∀ nq, (roundsW 0).suggestResp = some nq → nq ≠ "" → nq ≠ defaultQuery →
        tail = (runFrom envW roundsW ["Old Cafe"] nq 1
            (processPlaces envW (roundsW 0).places ⟨[oldEntry], ["u1"], []⟩).st
            (0 + (processPlaces envW (roundsW 0).places ⟨[oldEntry], ["u1"], []⟩).newCount)
            (0 + (processPlaces envW (roundsW 0).places ⟨[oldEntry], ["u1"], []⟩).skippedCount)
            1 2).events ∧
          ∃ t2, tail = Event.discover nq :: t2) ∧
      (((roundsW 0).suggestResp = none ∨ (roundsW 0).suggestResp = some "" ∨
          (roundsW 0).suggestResp = some defaultQuery) →
        tail = [Event.save
          (processPlaces envW (roundsW 0).places ⟨[oldEntry], ["u1"], []⟩).st.ledger]) :=
  C3_retry_policy envW roundsW ["Old Cafe"] defaultQuery 0
    ⟨[oldEntry], ["u1"], []⟩ 0 0 0 2 (by decide) (by decide) (by decide) (by decide)

theorem runFrom_save_once (env : Env) (rounds : Nat → Round) (pn : List String) :
    ∀ (fuel : Nat) (q : String) (rc : Nat) (st : PState) (tn ts i : Nat),
      ∃ pre,
        (runFrom env rounds pn q rc st tn ts i fuel).events =
          pre ++ [Event.save (runFrom env rounds pn q rc st tn ts i fuel).ledger] ∧
        (∀ e ∈ pre, e.isSave = false) ∧
        ∃ suffix,
          (runFrom env rounds pn q rc st tn ts i fuel).ledger = st.ledger ++ suffix := by
  intro fuel
  induction fuel with
  | zero =>
    intro q rc st tn ts i
    exact ⟨[], rfl, by simp, [], by simp [runFrom, finishRun]⟩
  | succ fuel ih =>
    intro q rc st tn ts i
    rcases processPlaces_decomp env (rounds i).places st with
      ⟨ne, nw, hl, _, _, _, _, _, _⟩
    by_cases h : (jsDupRatioGtHalf
        (processPlaces env (rounds i).places st).skippedCount
        (rounds i).places.length
      && decide ((processPlaces env (rounds i).places st).newCount < 5)
      && decide (rc < MAX_RETRIES - 1)) = true
    · rcases h0 : (rounds i).suggestResp with _ | nq
      · rw [runFrom_succ_of_stop env rounds pn q rc st tn ts i fuel h (Or.inl h0)]
        exact ⟨[Event.discover q, Event.suggest q (mainSuggestNames pn (processPlaces env (rounds i).places st).skippedNames)], rfl,
          by simp [Event.isSave], ne, hl⟩
      · by_cases h1 : nq = ""
        · subst h1
          rw [runFrom_succ_of_stop env rounds pn q rc st tn ts i fuel h
            (Or.inr (Or.inl h0))]
          exact ⟨[Event.discover q, Event.suggest q (mainSuggestNames pn (processPlaces env (rounds i).places st).skippedNames)], rfl,
            by simp [Event.isSave], ne, hl⟩
        · by_cases h2 : nq = q
          · rw [h2] at h0
            rw [runFrom_succ_of_stop env rounds pn q rc st tn ts i fuel h
              (Or.inr (Or.inr h0))]
            exact ⟨[Event.discover q, Event.suggest q (mainSuggestNames pn (processPlaces env (rounds i).places st).skippedNames)], rfl,
              by simp [Event.isSave], ne, hl⟩
          · rw [runFrom_succ_of_retry env rounds pn q rc st tn ts i fuel nq h h0 h1 h2]
            rcases ih nq (rc + 1) (processPlaces env (rounds i).places st).st
                (tn + (processPlaces env (rounds i).places st).newCount)
                (ts + (processPlaces env (rounds i).places st).skippedCount)
                (i + 1) with ⟨pre, hpre, hsave, suf, hsuf⟩
            refine ⟨Event.discover q :: Event.suggest q (mainSuggestNames pn (processPlaces env (rounds i).places st).skippedNames) :: pre,
              ?_, ?_, ne ++ suf, ?_⟩
            · simp only [prependEvents]
              rw [hpre]
              rfl
            · intro e he
              rcases List.mem_cons.mp he with rfl | he'
              · rfl
              · rcases List.mem_cons.mp he' with rfl | hmem
                · rfl
                · exact hsave e hmem
            · show (runFrom env rounds pn nq (rc + 1) _ _ _ (i + 1) fuel).ledger = _
              rw [hsuf, hl, List.append_assoc]
    · rw [runFrom_succ_of_cond_false env rounds pn q rc st tn ts i fuel
        (Bool.not_eq_true _ ▸ h)]
      exact ⟨[Event.discover q], rfl, by simp [Event.isSave], ne, hl⟩

/-- C5 (amended): the ingestion run writes the ledger to the store exactly
once, as the final event of the run (after the retry loop exits), and that
single write holds the full in-memory ledger — the initial entries plus
everything appended across all completed batches.  (The per-batch `PERSIST`
step of the claim does not exist in the code: no save event precedes the
final one.) -/
theorem C5_save_after_loop (env : Env) (rounds : Nat → Round)
    (argQuery : Option String) (init : List Entry) :
    ∃ pre,
      (mainModel env rounds argQuery init).events =
        pre ++ [Event.save (mainModel env rounds argQuery init).ledger] ∧
      (∀ e ∈ pre, e.isSave = false) ∧
      ∃ suffix, (mainModel env rounds argQuery init).ledger = init ++ suffix :=
  runFrom_save_once env rounds (init.map Entry.name) MAX_RETRIES
    (jsOrStr argQuery defaultQuery) 0 ⟨init, init.map Entry.uri, []⟩ 0 0 0

/-- Concrete instance of the amended C5 law. -/
theorem C5_save_after_loop_witness :
    ∃ pre,
      (mainModel envW roundsEmpty none []).events =
        pre ++ [Event.save (mainModel envW roundsEmpty none []).ledger] ∧
      (∀ e ∈ pre, e.isSave = false) ∧
      ∃ suffix, (mainModel envW roundsEmpty none []).ledger = [] ++ suffix :=
  C5_save_after_loop envW roundsEmpty none []

/-- C5 counterexample: a run with two completed batches (the first triggers a
query refinement) performs no ledger write after the first batch — its trace
holds exactly one save, at the very end — refuting the claim that the ledger
is written to the store at every `EVALUATE_RETRY` step. -/
theorem C5_counterexample :
    (mainModel envW roundsW none [oldEntry]).events =
      [Event.discover defaultQuery,
       Event.suggest defaultQuery ["Old Cafe", "Old Cafe"],
       Event.discover "coworking cafes Chamberi",
       Event.save [oldEntry]] ∧
    ((mainModel envW roundsW none [oldEntry]).events.filter Event.isSave).length
      = 1 := by
  constructor
  · rfl
  · rfl

/-- C9: a discovery call returning an empty batch terminates the run
normally: the JS duplicate-ratio comparison `0/0 > 0.5` is false (`0/0` is
`NaN`), no retry is triggered and no suggestion requested, the (unchanged)
ledger is saved, and the run reports zero new and zero skipped items. -/
theorem C9_empty_discovery (env : Env) (rounds : Nat → Round)
    (argQuery : Option String) (init : List Entry)
    (hempty : (rounds 0).places = []) :
    jsDupRatioGtHalf 0 0 = false ∧
    mainModel env rounds argQuery init =
      ⟨[Event.discover (jsOrStr argQuery defaultQuery), Event.save init],
       init, [], 0, 0, 0⟩ := by
  constructor
  · rfl
  · have hm : mainModel env rounds argQuery init =
        runFrom env rounds (init.map Entry.name) (jsOrStr argQuery defaultQuery) 0
          ⟨init, init.map Entry.uri, []⟩ 0 0 0 (2 + 1) := rfl
    rw [hm, runFrom_succ_of_cond_false]
    · simp [hempty, processPlaces, prependEvents, finishRun]
    · simp [hempty, processPlaces, jsDupRatioGtHalf]

/-- Concrete instance of the C9 law. -/
theorem C9_empty_discovery_witness :
    jsDupRatioGtHalf 0 0 = false ∧
    mainModel envW roundsEmpty none [] =
      ⟨[Event.discover (jsOrStr none defaultQuery), Event.save []],
       [], [], 0, 0, 0⟩ :=
  C9_empty_discovery envW roundsEmpty none [] rfl

theorem processPlaces_inv (env : Env) (places : List Place) (st : PState)
    (h1 : (st.ledger.map Entry.uri).Nodup)
    (h2 : ∀ e ∈ st.ledger, e.uri ∈ st.uris) :
    ((processPlaces env places st).st.ledger.map Entry.uri).Nodup ∧
    ∀ e ∈ (processPlaces env places st).st.ledger,
      e.uri ∈ (processPlaces env places st).st.uris := by
  rcases processPlaces_decomp env places st with ⟨ne, nw, hl, _, hu, _, _, hnd, hdisj⟩
  constructor
  · rw [hl, List.map_append, List.nodup_append]
    refine ⟨h1, hnd, ?_⟩
    intro a ha hb
    rcases List.mem_map.mp ha with ⟨e, he, rfl⟩
    exact hdisj _ hb (h2 e he)
  · intro e he
    rw [hu]
    rw [hl] at he
    rcases List.mem_append.mp he with h | h
    · exact List.mem_append.mpr (Or.inl (h2 e h))
    · exact List.mem_append.mpr (Or.inr (List.mem_map_of_mem _ h))

theorem runFrom_ledger_inv (env : Env) (rounds : Nat → Round) (pn : List String) :
    ∀ (fuel : Nat) (q : String) (rc : Nat) (st : PState) (tn ts i : Nat),
      (st.ledger.map Entry.uri).Nodup →
      (∀ e ∈ st.ledger, e.uri ∈ st.uris) →
      ((runFrom env rounds pn q rc st tn ts i fuel).ledger.map Entry.uri).Nodup := by
  intro fuel
  induction fuel with
  | zero =>
    intro q rc st tn ts i h1 _
    exact h1
  | succ fuel ih =>
    intro q rc st tn ts i h1 h2
    have hinv := processPlaces_inv env (rounds i).places st h1 h2
    by_cases h : (jsDupRatioGtHalf
        (processPlaces env (rounds i).places st).skippedCount
        (rounds i).places.length
      && decide ((processPlaces env (rounds i).places st).newCount < 5)
      && decide (rc < MAX_RETRIES - 1)) = true
    · rcases h0 : (rounds i).suggestResp with _ | nq
      · rw [runFrom_succ_of_stop env rounds pn q rc st tn ts i fuel h (Or.inl h0)]
        exact hinv.1
      · by_cases hq1 : nq = ""
        · subst hq1
          rw [runFrom_succ_of_stop env rounds pn q rc st tn ts i fuel h
            (Or.inr (Or.inl h0))]
          exact hinv.1
        · by_cases hq2 : nq = q
          · rw [hq2] at h0
            rw [runFrom_succ_of_stop env rounds pn q rc st tn ts i fuel h
              (Or.inr (Or.inr h0))]
            exact hinv.1
          · rw [runFrom_succ_of_retry env rounds pn q rc st tn ts i fuel nq h h0 hq1 hq2]
            exact ih nq (rc + 1) _ _ _ (i + 1) hinv.1 hinv.2
    · rw [runFrom_succ_of_cond_false env rounds pn q rc st tn ts i fuel
        (Bool.not_eq_true _ ▸ h)]
      exact hinv.1

theorem refineLoop_nodup (env : REnv) :
    ∀ (fs : List String) (k : Nat) (ledger : List REntry)
      (writes : List (String × List Char)),
      (ledger.map REntry.filename).Nodup →
      (∀ f ∈ fs, f ∉ ledger.map REntry.filename) →
      fs.Nodup →
      ((refineLoop env fs k ledger writes).1.map REntry.filename).Nodup := by
  intro fs
  induction fs with
  | nil =>
    intro k ledger writes h1 _ _
    exact h1
  | cons f fs' ih =>
    intro k ledger writes h1 h2 h3
    rw [refineLoop]
    rcases hro : refineOne env k f with _ | ⟨sn, content⟩
    · exact ih (k + 1) ledger writes h1
        (fun g hg => h2 g (List.mem_cons_of_mem _ hg)) (List.Nodup.of_cons h3)
    · refine ih (k + 1) (ledger ++ [⟨f, sn, env.now⟩]) _ ?_ ?_ (List.Nodup.of_cons h3)
      · rw [List.map_append, List.nodup_append]
        refine ⟨h1, by simp, ?_⟩
        intro a ha hb
        have hb' : a = f := by simpa using hb
        rw [hb'] at ha
        exact h2 f (List.mem_cons_self f fs') ha
      · intro g hg
        rw [List.map_append]
        intro hmem
        rcases List.mem_append.mp hmem with hmem | hmem
        · exact h2 g (List.mem_cons_of_mem _ hg) hmem
        · have hm' : g = f := by simpa using hmem
          rw [hm'] at hg
          exact (List.nodup_cons.mp h3).1 hg

/-- C8: for both ledgers, starting from a ledger file whose key column has no
duplicates, the ledger obtained after a full pipeline run followed by a save
and reload still has no duplicate keys — external URIs for the ingestion
ledger (even when the same URI occurs twice in one discovery batch), file
names for the refinement ledger (given that the directory listing has no
duplicate names). -/
theorem C8_unique_keys :
    (∀ (env : Env) (rounds : Nat → Round) (argQuery : Option String)
        (init : List Entry),
      (init.map Entry.uri).Nodup →
      ((loadProcessedSpots (saveProcessedSpots
          (mainModel env rounds argQuery init).ledger)).map Entry.uri).Nodup) ∧
    (∀ (renv : REnv) (dirListing : List String) (init : List REntry),
      dirListing.Nodup →
      (init.map REntry.filename).Nodup →
      ((loadRefinedSpots (saveRefinedSpots
          (refineMain renv dirListing init).1)).map REntry.filename).Nodup) := by
  constructor
  · intro env rounds argQuery init hinit
    exact runFrom_ledger_inv env rounds (init.map Entry.name) MAX_RETRIES
      (jsOrStr argQuery defaultQuery) 0 ⟨init, init.map Entry.uri, []⟩ 0 0 0
      hinit (fun e he => List.mem_map_of_mem _ he)
  · intro renv dirListing init hdir hinit
    apply refineLoop_nodup
    · exact hinit
    · intro f hf
      have := (List.mem_filter.mp hf).2
      simpa using this
    · exact (((hdir.filter _).filter _).filter _)

/-- Concrete instance of the C8 law for both ledgers. -/
theorem C8_unique_keys_witness :
    ((loadProcessedSpots (saveProcessedSpots
        (mainModel envW roundsEmpty none [oldEntry]).ledger)).map Entry.uri).Nodup ∧
    ((loadRefinedSpots (saveRefinedSpots
        (refineMain renvW ["a.mdx"] []).1)).map REntry.filename).Nodup :=
  ⟨C8_unique_keys.1 envW roundsEmpty none [oldEntry] (by simp),
   C8_unique_keys.2 renvW ["a.mdx"] [] (by simp) (by simp)⟩

theorem isLowerAlnum_ne_hyphen {c : Char} (h : isLowerAlnum c = true) : c ≠ '-' := by
  intro he
  rw [he] at h
  exact absurd h (by decide)

theorem collapseAux_chars (b : Bool) (l : List Char) :
    ∀ c ∈ collapseAux b l, isLowerAlnum c = true ∨ c = '-' := by
  induction l generalizing b with
  | nil => simp [collapseAux]
  | cons d t ih =>
    intro c hc
    by_cases hd : isLowerAlnum d = true
    · rw [collapseAux, if_pos hd] at hc
      rcases List.mem_cons.mp hc with rfl | hmem
      · exact Or.inl hd
      · exact ih false c hmem
    · rw [collapseAux, if_neg hd] at hc
      cases b with
      | true => exact ih true c (by simpa using hc)
      | false =>
        rcases List.mem_cons.mp (by simpa using hc) with rfl | hmem
        · exact Or.inr rfl
        · exact ih true c hmem

theorem collapseAux_ok (l : List Char) : ∀ b, okAfter b (collapseAux b l) = true := by
  induction l with
  | nil => intro b; rfl
  | cons d t ih =>
    intro b
    by_cases hd : isLowerAlnum d = true
    · rw [collapseAux, if_pos hd, okAfter, if_pos hd]
      exact ih false
    · cases b with
      | true =>
        rw [collapseAux, if_neg hd, if_pos rfl]
        exact ih true
      | false =>
        rw [collapseAux, if_neg hd, if_neg (by simp), okAfter,
          if_neg (by decide), if_pos rfl]
        simpa using ih true

theorem okAfter_mono (l : List Char) (h : okAfter true l = true) :
    okAfter false l = true := by
  cases l with
  | nil => rfl
  | cons c t =>
    by_cases hc : isLowerAlnum c = true
    · rw [okAfter, if_pos hc] at h ⊢
      exact h
    · rw [okAfter, if_neg hc] at h
      by_cases h2 : c = '-'
      · rw [if_pos h2] at h
        exact absurd h (by simp)
      · rw [if_neg h2] at h
        exact absurd h (by simp)

theorem okAfter_dropLast : ∀ (l : List Char) (b : Bool),
    okAfter b l = true → okAfter b l.dropLast = true := by
  intro l
  induction l with
  | nil => intro b h; exact h
  | cons c t ih =>
    intro b h
    cases t with
    | nil => cases b <;> rfl
    | cons d t' =>
      have hdl : (c :: d :: t').dropLast = c :: (d :: t').dropLast := rfl
      rw [hdl]
      by_cases hc : isLowerAlnum c = true
      · rw [okAfter, if_pos hc] at h ⊢
        exact ih false h
      · by_cases h2 : c = '-'
        · rw [okAfter, if_neg hc, if_pos h2] at h ⊢
          rw [Bool.and_eq_true] at h ⊢
          exact ⟨h.1, ih true h.2⟩
        · rw [okAfter, if_neg hc, if_neg h2] at h
          exact absurd h (by simp)

theorem getLast?_cons_of_ne_nil {c : Char} {t : List Char} (h : t ≠ []) :
    (c :: t).getLast? = t.getLast? := by
  cases t with
  | nil => exact absurd rfl h
  | cons d t' => exact List.getLast?_cons_cons

theorem okAfter_dropLast_getLast : ∀ (l : List Char) (b : Bool),
    okAfter b l = true → l.getLast? = some '-' →
    l.dropLast.getLast? ≠ some '-' := by
  intro l
  induction l with
  | nil =>
    intro b _ hl
    simp at hl
  | cons c t ih =>
    intro b h hl
    cases t with
    | nil => simp
    | cons d t' =>
      have hdl : (c :: d :: t').dropLast = c :: (d :: t').dropLast := rfl
      rw [getLast?_cons_of_ne_nil (by simp)] at hl
      by_cases hc : isLowerAlnum c = true
      · rw [okAfter, if_pos hc] at h
        cases t' with
        | nil =>
          rw [hdl, List.dropLast_single, List.getLast?_singleton]
          intro heq
          exact isLowerAlnum_ne_hyphen hc (by simpa using heq)
        | cons e t'' =>
          rw [hdl, getLast?_cons_of_ne_nil (by simp)]
          exact ih false h hl
      · by_cases h2 : c = '-'
        · rw [okAfter, if_neg hc, if_pos h2] at h
          rw [Bool.and_eq_true] at h
          obtain ⟨_, hok⟩ := h
          cases t' with
          | nil =>
            have hd : d = '-' := by simpa using hl
            rw [hd] at hok
            exact absurd hok (by decide)
          | cons e t'' =>
            rw [hdl, getLast?_cons_of_ne_nil (by simp)]
            exact ih true hok hl
        · rw [okAfter, if_neg hc, if_neg h2] at h
          exact absurd h (by simp)

theorem okAfter_slugPattern : ∀ (l : List Char) (b : Bool),
    okAfter b l = true → l.getLast? ≠ some '-' →
    (b = true ∧ l = []) ∨ slugPatternAux b l = true := by
  intro l
  induction l with
  | nil =>
    intro b _ _
    cases b with
    | true => exact Or.inl ⟨rfl, rfl⟩
    | false => exact Or.inr rfl
  | cons c t ih =>
    intro b h hl
    right
    by_cases hc : isLowerAlnum c = true
    · rw [okAfter, if_pos hc] at h
      rw [slugPatternAux, if_pos hc]
      cases t with
      | nil => rfl
      | cons d t' =>
        have hl' : (d :: t').getLast? ≠ some '-' := by
          rwa [getLast?_cons_of_ne_nil (by simp)] at hl
        rcases ih false h hl' with ⟨hfalse, _⟩ | hpat
        · exact absurd hfalse (by simp)
        · exact hpat
    · by_cases h2 : c = '-'
      · subst h2
        rw [okAfter, if_neg hc, if_pos rfl] at h
        rw [Bool.and_eq_true] at h
        obtain ⟨hb, hok⟩ := h
        have hbf : b = false := by simpa using hb
        subst hbf
        rw [slugPatternAux, if_neg hc, if_pos (by decide)]
        cases t with
        | nil =>
          exact absurd (List.getLast?_singleton '-') hl
        | cons d t' =>
          have hl' : (d :: t').getLast? ≠ some '-' := by
            rwa [getLast?_cons_of_ne_nil (by simp)] at hl
          rcases ih true hok hl' with ⟨_, ht⟩ | hpat
          · exact absurd ht (by simp)
          · exact hpat
      · rw [okAfter, if_neg hc, if_neg h2] at h
        exact absurd h (by simp)

theorem collapseAux_id : ∀ (l : List Char) (b : Bool),
    (∀ c ∈ l, isLowerAlnum c = true ∨ c = '-') → okAfter b l = true →
    collapseAux b l = l := by
  intro l
  induction l with
  | nil => intro b _ _; rfl
  | cons c t ih =>
    intro b hchars h
    by_cases hc : isLowerAlnum c = true
    · rw [okAfter, if_pos hc] at h
      rw [collapseAux, if_pos hc,
        ih false (fun d hd => hchars d (List.mem_cons_of_mem _ hd)) h]
    · have hc2 : c = '-' := (hchars c (List.mem_cons_self c t)).resolve_left hc
      subst hc2
      rw [okAfter, if_neg hc, if_pos rfl] at h
      rw [Bool.and_eq_true] at h
      obtain ⟨hb, hok⟩ := h
      have hbf : b = false := by simpa using hb
      subst hbf
      rw [collapseAux, if_neg hc, if_neg (by simp),
        ih true (fun d hd => hchars d (List.mem_cons_of_mem _ hd)) hok]

theorem trimEdgeHyphens_subset (l : List Char) :
    ∀ c ∈ trimEdgeHyphens l, c ∈ l := by
  intro c hc
  unfold trimEdgeHyphens at hc
  by_cases h1 : l.head? = some '-'
  · rw [if_pos h1] at hc
    by_cases h2 : l.tail.getLast? = some '-'
    · rw [if_pos h2] at hc
      exact (List.tail_suffix l).subset ((List.dropLast_prefix _).subset hc)
    · rw [if_neg h2] at hc
      exact (List.tail_suffix l).subset hc
  · rw [if_neg h1] at hc
    by_cases h2 : l.getLast? = some '-'
    · rw [if_pos h2] at hc
      exact (List.dropLast_prefix _).subset hc
    · rw [if_neg h2] at hc
      exact hc

theorem trimEdgeHyphens_id {l : List Char} (h1 : l.head? ≠ some '-')
    (h2 : l.getLast? ≠ some '-') : trimEdgeHyphens l = l := by
  unfold trimEdgeHyphens
  rw [if_neg h1, if_neg h2]

theorem stripCombining_id {l : List Char}
    (h : ∀ c ∈ l, isLowerAlnum c = true ∨ c = '-') : stripCombining l = l := by
  unfold stripCombining
  apply List.filter_eq_self.mpr
  intro c hc
  rcases h c hc with hA | hB
  · simp only [isLowerAlnum, Bool.or_eq_true, Bool.and_eq_true,
      decide_eq_true_eq] at hA
    simp only [Bool.not_eq_true', Bool.and_eq_false_iff, decide_eq_false_iff_not]
    rcases hA with ⟨_, h122⟩ | ⟨_, h57⟩
    · exact Or.inl (by omega)
    · exact Or.inl (by omega)
  · subst hB
    decide

theorem slugPattern_head {e : Char} {r : List Char}
    (h : slugPatternAux true (e :: r) = true) : isLowerAlnum e = true := by
  by_cases he : isLowerAlnum e = true
  · exact he
  · rw [slugPatternAux, if_neg he, if_neg (by simp)] at h
    exact absurd h (by simp)

theorem slugPatternAux_head_eq {c : Char} (hca : isLowerAlnum c = true)
    (r : List Char) : slugPatternAux true (c :: r) = slugPatternAux false (c :: r) := by
  rw [slugPatternAux, if_pos hca]
  rw [slugPatternAux, if_pos hca]

theorem head?_ne_hyphen_of_slugPattern {y : List Char}
    (h : slugPatternAux true y = true) : y.head? ≠ some '-' := by
  cases y with
  | nil => simp
  | cons e r =>
    have he := slugPattern_head h
    simp only [List.head?_cons]
    intro heq
    exact isLowerAlnum_ne_hyphen he (by simpa using heq)

theorem trim_props (z : List Char) (hok : okAfter false z = true) :
    trimEdgeHyphens z = [] ∨
    (slugPattern (trimEdgeHyphens z) = true ∧
     okAfter false (trimEdgeHyphens z) = true ∧
     (trimEdgeHyphens z).head? ≠ some '-' ∧
     (trimEdgeHyphens z).getLast? ≠ some '-') := by
  cases z with
  | nil =>
    left
    simp [trimEdgeHyphens]
  | cons c t =>
    by_cases hc : c = '-'
    · subst hc
      have hokt : okAfter true t = true := by
        rw [okAfter, if_neg (by decide), if_pos rfl] at hok
        simpa using hok
      have hl1 : trimEdgeHyphens ('-' :: t) =
          if t.getLast? = some '-' then t.dropLast else t := by
        simp [trimEdgeHyphens]
      rw [hl1]
      by_cases hlast : t.getLast? = some '-'
      · rw [if_pos hlast]
        have hok' : okAfter true t.dropLast = true := okAfter_dropLast t true hokt
        have hlast' : t.dropLast.getLast? ≠ some '-' :=
          okAfter_dropLast_getLast t true hokt hlast
        rcases okAfter_slugPattern t.dropLast true hok' hlast' with ⟨_, hnil⟩ | hpat
        · left
          exact hnil
        · right
          exact ⟨hpat, okAfter_mono _ hok', head?_ne_hyphen_of_slugPattern hpat, hlast'⟩
      · rw [if_neg hlast]
        rcases okAfter_slugPattern t true hokt hlast with ⟨_, hnil⟩ | hpat
        · left
          exact hnil
        · right
          exact ⟨hpat, okAfter_mono _ hokt, head?_ne_hyphen_of_slugPattern hpat, hlast⟩
    · have hca : isLowerAlnum c = true := by
        by_cases h' : isLowerAlnum c = true
        · exact h'
        · rw [okAfter, if_neg h', if_neg hc] at hok
          exact absurd hok (by simp)
      have hl1 : trimEdgeHyphens (c :: t) =
          if (c :: t).getLast? = some '-' then (c :: t).dropLast else (c :: t) := by
        simp [trimEdgeHyphens, hc]
      rw [hl1]
      by_cases hlast : (c :: t).getLast? = some '-'
      · rw [if_pos hlast]
        have hok' := okAfter_dropLast (c :: t) false hok
        have hlast' := okAfter_dropLast_getLast (c :: t) false hok hlast
        rcases okAfter_slugPattern (c :: t).dropLast false hok' hlast' with ⟨hft, _⟩ | hpat
        · exact absurd hft (by simp)
        · cases t with
          | nil => exact absurd (by simpa using hlast) hc
          | cons d t2 =>
            have hyform : (c :: d :: t2).dropLast = c :: (d :: t2).dropLast := rfl
            right
            rw [hyform] at hpat hok' hlast' ⊢
            refine ⟨?_, hok', by simp [isLowerAlnum_ne_hyphen hca], hlast'⟩
            rw [slugPattern, slugPatternAux_head_eq hca]
            exact hpat
      · rw [if_neg hlast]
        rcases okAfter_slugPattern (c :: t) false hok hlast with ⟨hft, _⟩ | hpat
        · exact absurd hft (by simp)
        · right
          refine ⟨?_, hok, by simp [isLowerAlnum_ne_hyphen hca], hlast⟩
          rw [slugPattern, slugPatternAux_head_eq hca]
          exact hpat

/-- C7: `slugify` is idempotent and its output is empty or matches
`^[a-z0-9]+(-[a-z0-9]+)*$`.  The statement holds for any implementations of
the Unicode built-ins `toLowerCase` and `normalize('NFD')` that fix strings
of lowercase ASCII alphanumerics and hyphens — which the real built-ins do
(NFD is the identity on ASCII, and lowercasing fixes lowercase ASCII). -/
theorem C7_slugify_idempotent_shape (lower nfd : List Char → List Char)
    (hlower : ∀ l, (∀ c ∈ l, isLowerAlnum c = true ∨ c = '-') → lower l = l)
    (hnfd : ∀ l, (∀ c ∈ l, isLowerAlnum c = true ∨ c = '-') → nfd l = l)
    (x : List Char) :
    slugify lower nfd (slugify lower nfd x) = slugify lower nfd x ∧
    (slugify lower nfd x = [] ∨ slugPattern (slugify lower nfd x) = true) := by
  have hy := trim_props (collapseAux false (stripCombining (nfd (lower x))))
    (collapseAux_ok (stripCombining (nfd (lower x))) false)
  rcases hy with hy | ⟨hpat, hok, hhead, hlast⟩
  · constructor
    · show trimEdgeHyphens (collapseAux false (stripCombining
          (nfd (lower (slugify lower nfd x))))) = slugify lower nfd x
      have hyx : slugify lower nfd x = [] := hy
      rw [hyx, hlower [] (by simp), hnfd [] (by simp)]
      rfl
    · left
      exact hy
  · have hok' : okAfter false (slugify lower nfd x) = true := hok
    have hhead' : (slugify lower nfd x).head? ≠ some '-' := hhead
    have hlast' : (slugify lower nfd x).getLast? ≠ some '-' := hlast
    have hpat' : slugPattern (slugify lower nfd x) = true := hpat
    have hchars : ∀ c ∈ slugify lower nfd x, isLowerAlnum c = true ∨ c = '-' := by
      intro c hc
      exact collapseAux_chars false _ c (trimEdgeHyphens_subset _ c hc)
    constructor
    · show trimEdgeHyphens (collapseAux false (stripCombining
          (nfd (lower (slugify lower nfd x))))) = slugify lower nfd x
      rw [hlower _ hchars, hnfd _ hchars, stripCombining_id hchars,
        collapseAux_id _ false hchars hok', trimEdgeHyphens_id hhead' hlast']
    · right
      exact hpat'

/-- Concrete instance of the C7 law with the identity built-ins (which fix
slug-charset strings) on a mixed-case punctuated input. -/
theorem C7_slugify_witness :
    slugify id id (slugify id id ("  Cafe--con Leche!! 99 ".data)) =
      slugify id id ("  Cafe--con Leche!! 99 ".data) ∧
    (slugify id id ("  Cafe--con Leche!! 99 ".data) = [] ∨
      slugPattern (slugify id id ("  Cafe--con Leche!! 99 ".data)) = true) :=
  C7_slugify_idempotent_shape id id (fun _ _ => rfl) (fun _ _ => rfl) _

theorem splitFirst_sound (pat : List Char) :
    ∀ (s pre post : List Char), splitFirst pat s = some (pre, post) →
      s = pre ++ pat ++ post := by
  intro s
  induction s with
  | nil =>
    intro pre post h
    rw [splitFirst] at h
    by_cases hp : pat = []
    · rw [if_pos hp] at h
      simp only [Option.some.injEq, Prod.mk.injEq] at h
      obtain ⟨h1, h2⟩ := h
      rw [← h1, ← h2, hp]
      rfl
    · rw [if_neg hp] at h
      exact absurd h (by simp)
  | cons c t ih =>
    intro pre post h
    rw [splitFirst] at h
    by_cases hp : pat.isPrefixOf (c :: t) = true
    · rw [if_pos hp] at h
      simp only [Option.some.injEq, Prod.mk.injEq] at h
      obtain ⟨h1, h2⟩ := h
      rcases List.isPrefixOf_iff_prefix.mp hp with ⟨u, hu⟩
      rw [← h1, ← h2, ← hu, List.nil_append, List.drop_left]
    · rw [if_neg hp] at h
      rcases hsf : splitFirst pat t with _ | ⟨pre', post'⟩
      · rw [hsf] at h
        exact absurd h (by simp)
      · rw [hsf] at h
        simp only [Option.map_some', Option.some.injEq, Prod.mk.injEq] at h
        obtain ⟨h1, h2⟩ := h
        rw [← h1, ← h2]
        simpa using ih pre' post' hsf

theorem splitFirst_min (pat : List Char) :
    ∀ (s pre post : List Char), splitFirst pat s = some (pre, post) →
      ∀ i, i < pre.length → ¬ pat <+: s.drop i := by
  intro s
  induction s with
  | nil =>
    intro pre post h
    rw [splitFirst] at h
    by_cases hp : pat = []
    · rw [if_pos hp] at h
      simp only [Option.some.injEq, Prod.mk.injEq] at h
      obtain ⟨h1, _⟩ := h
      intro i hi
      rw [← h1] at hi
      exact absurd hi (by simp)
    · rw [if_neg hp] at h
      exact absurd h (by simp)
  | cons c t ih =>
    intro pre post h
    rw [splitFirst] at h
    by_cases hp : pat.isPrefixOf (c :: t) = true
    · rw [if_pos hp] at h
      simp only [Option.some.injEq, Prod.mk.injEq] at h
      obtain ⟨h1, _⟩ := h
      intro i hi
      rw [← h1] at hi
      exact absurd hi (by simp)
    · rw [if_neg hp] at h
      rcases hsf : splitFirst pat t with _ | ⟨pre', post'⟩
      · rw [hsf] at h
        exact absurd h (by simp)
      · rw [hsf] at h
        simp only [Option.map_some', Option.some.injEq, Prod.mk.injEq] at h
        obtain ⟨h1, _⟩ := h
        intro i hi
        cases i with
        | zero =>
          intro hpre
          exact hp (List.isPrefixOf_iff_prefix.mpr hpre)
        | succ j =>
          have hj : j < pre'.length := by
            rw [← h1] at hi
            simpa using hi
          exact ih pre' post' hsf j hj

theorem splitFirst_isSome_of (pat : List Char) :
    ∀ (x y : List Char), (splitFirst pat (x ++ (pat ++ y))).isSome = true := by
  intro x
  induction x with
  | nil =>
    intro y
    rw [List.nil_append]
    cases hp : pat ++ y with
    | nil =>
      have hpe : pat = [] := (List.append_eq_nil.mp hp).1
      rw [splitFirst, if_pos hpe]
      rfl
    | cons c t =>
      rw [splitFirst, if_pos]
      · rfl
      · rw [← hp]
        exact List.isPrefixOf_iff_prefix.mpr (List.prefix_append pat y)
  | cons c x' ih =>
    intro y
    rw [List.cons_append, splitFirst]
    by_cases hp : pat.isPrefixOf (c :: (x' ++ (pat ++ y))) = true
    · rw [if_pos hp]
      rfl
    · have hi := ih y
      rcases hsf : splitFirst pat (x' ++ (pat ++ y)) with _ | pr
      · rw [hsf] at hi
        exact absurd hi (by simp)
      · rw [if_neg hp]
        rfl

theorem splitFirst_isSome_iff (pat s : List Char) :
    (splitFirst pat s).isSome = true ↔ pat <:+: s := by
  constructor
  · intro h
    rcases hsf : splitFirst pat s with _ | ⟨pre, post⟩
    · rw [hsf] at h
      exact absurd h (by simp)
    · exact ⟨pre, post, (splitFirst_sound pat s pre post hsf).symm⟩
  · intro ⟨u, v, huv⟩
    rw [← huv, List.append_assoc]
    exact splitFirst_isSome_of pat u v

theorem splitFirst_pre_not_infix (pat s pre post : List Char) (hpat : pat ≠ [])
    (h : splitFirst pat s = some (pre, post)) : ¬ pat <:+: pre := by
  intro ⟨u, v, huv⟩
  have hlen : u.length < pre.length := by
    have hlens := congrArg List.length huv
    have hp0 : 0 < pat.length := List.length_pos_of_ne_nil hpat
    simp only [List.length_append] at hlens
    omega
  apply splitFirst_min pat s pre post h u.length hlen
  have hs := splitFirst_sound pat s pre post h
  have hre : s = u ++ (pat ++ (v ++ (pat ++ post))) := by
    rw [hs, ← huv]
    simp [List.append_assoc]
  rw [hre, List.drop_left]
  exact List.prefix_append pat _

theorem splitFirst_pre_not_fmDelim4_suffix (s pre post : List Char)
    (h : splitFirst fmDelim s = some (pre, post)) : ¬ fmDelim4 <:+ pre := by
  intro ⟨y, hy⟩
  have hlen : y.length < pre.length := by
    have hlens := congrArg List.length hy
    have h4 : fmDelim4.length = 4 := rfl
    simp only [List.length_append] at hlens
    omega
  apply splitFirst_min fmDelim s pre post h y.length hlen
  have hs := splitFirst_sound fmDelim s pre post h
  have hre : s = y ++ (fmDelim4 ++ (fmDelim ++ post)) := by
    rw [hs, ← hy]
    simp [List.append_assoc]
  rw [hre, List.drop_left]
  exact ⟨('-' :: '-' :: '-' :: '\n' :: []) ++ post, rfl⟩

theorem not_infix_of_not_mem {c : Char} {pat l : List Char} (hm : c ∈ pat)
    (hnm : c ∉ l) : ¬ pat <:+: l :=
  fun hinf => hnm (hinf.subset hm)

theorem not_infix_of_count {c : Char} {pat l : List Char}
    (h : l.count c < pat.count c) : ¬ pat <:+: l := by
  intro hinf
  have := hinf.sublist.count_le c
  omega

theorem prefix_within {p x y : List Char} (h : p <+: x ++ y)
    (hlen : p.length ≤ x.length) : p <+: x := by
  have hp := List.prefix_iff_eq_take.mp h
  rw [List.take_append_eq_append_take, Nat.sub_eq_zero_of_le hlen,
    List.take_zero, List.append_nil] at hp
  rw [hp]
  exact List.take_prefix _ _

theorem prefix_spill {p x y : List Char} (h : p <+: x ++ y)
    (hlen : x.length ≤ p.length) :
    x = p.take x.length ∧ p.drop x.length <+: y := by
  have hp := List.prefix_iff_eq_take.mp h
  rw [List.take_append_eq_append_take, List.take_of_length_le hlen] at hp
  constructor
  · have h1 := congrArg (List.take x.length) hp
    rw [List.take_left] at h1
    exact h1.symm
  · have h2 := congrArg (List.drop x.length) hp
    rw [List.drop_left] at h2
    rw [h2]
    exact List.take_prefix _ _

theorem suffix_getLast? {s t : List Char} (h : s <:+ t) (hs : s ≠ []) :
    t.getLast? = s.getLast? := by
  rcases h with ⟨u, hu⟩
  rw [← hu]
  exact List.getLast?_append_of_ne_nil _ hs

theorem prefix_head? {p t : List Char} (h : p <+: t) (hp : p ≠ []) :
    t.head? = p.head? := by
  rcases h with ⟨u, hu⟩
  cases p with
  | nil => exact absurd rfl hp
  | cons c p' =>
    rw [← hu]
    rfl

theorem not_infix_append (pat : List Char) :
    ∀ (X Z : List Char), ¬ pat <:+: X → ¬ pat <:+: Z →
      (∀ k, 0 < k → k < pat.length → ¬ (pat.take k <:+ X ∧ pat.drop k <+: Z)) →
      ¬ pat <:+: (X ++ Z) := by
  intro X
  induction X with
  | nil =>
    intro Z _ hZ _
    simpa using hZ
  | cons c X' ih =>
    intro Z hX hZ hstraddle hinf
    rw [List.cons_append, List.infix_cons_iff] at hinf
    rcases hinf with hpre | htail
    · rw [← List.cons_append] at hpre
      rcases le_or_lt pat.length (c :: X').length with hle | hlt
      · exact hX (prefix_within hpre hle).isInfix
      · obtain ⟨hx, hdrop⟩ := prefix_spill hpre (le_of_lt hlt)
        apply hstraddle (c :: X').length (by simp) hlt
        constructor
        · rw [← hx]
        · exact hdrop
    · apply ih Z ?_ hZ ?_ htail
      · intro hin
        exact hX (hin.trans (List.suffix_cons c X').isInfix)
      · intro k h1 h2 ⟨hsuf, hpre⟩
        exact hstraddle k h1 h2 ⟨hsuf.trans (List.suffix_cons c X'), hpre⟩

theorem eq_cons_of_head? {a : Char} {l : List Char} (h : l.head? = some a) :
    l = a :: l.tail := by
  cases l with
  | nil => simp at h
  | cons c t =>
    have hc : c = a := by simpa using h
    rw [hc]
    rfl

theorem scanFind_sound (m : List Char → Option (List Char × List Char × List Char)) :
    ∀ (s pre : List Char) (r : List Char × List Char × List Char),
      scanFind m s = some (pre, r) →
      ∃ rest, s = pre ++ rest ∧ m rest = some r ∧
        ∀ i, i < pre.length → m (s.drop i) = none := by
  intro s
  induction s with
  | nil =>
    intro pre r h
    rw [scanFind] at h
    exact absurd h (by simp)
  | cons c t ih =>
    intro pre r h
    rw [scanFind] at h
    rcases hm : m (c :: t) with _ | r0
    · rw [hm] at h
      rcases hsf : scanFind m t with _ | ⟨pre', r'⟩
      · rw [hsf] at h
        exact absurd h (by simp)
      · rw [hsf] at h
        simp only [Option.map_some', Option.some.injEq, Prod.mk.injEq] at h
        obtain ⟨h1, h2⟩ := h
        rcases ih pre' r' hsf with ⟨rest, hr1, hr2, hr3⟩
        refine ⟨rest, ?_, ?_, ?_⟩
        · rw [← h1, List.cons_append, hr1]
        · rw [← h2]
          exact hr2
        · intro i hi
          cases i with
          | zero => exact hm
          | succ j =>
            have hj : j < pre'.length := by
              rw [← h1] at hi
              simpa using hi
            exact hr3 j hj
    · rw [hm] at h
      simp only [Option.some.injEq, Prod.mk.injEq] at h
      obtain ⟨h1, h2⟩ := h
      refine ⟨c :: t, by rw [← h1]; rfl, by rw [← h2]; exact hm, ?_⟩
      intro i hi
      rw [← h1] at hi
      exact absurd hi (by simp)

theorem scanFind_build (m : List Char → Option (List Char × List Char × List Char)) :
    ∀ (pre rest : List Char) (r : List Char × List Char × List Char),
      rest ≠ [] →
      (∀ i, i < pre.length → m ((pre ++ rest).drop i) = none) →
      m rest = some r →
      scanFind m (pre ++ rest) = some (pre, r) := by
  intro pre
  induction pre with
  | nil =>
    intro rest r hne _ hm
    cases rest with
    | nil => exact absurd rfl hne
    | cons c t =>
      rw [List.nil_append, scanFind, hm]
  | cons p pre' ih =>
    intro rest r hne hnone hm
    rw [List.cons_append, scanFind]
    have h0 : m (p :: (pre' ++ rest)) = none := by
      have := hnone 0 (by simp)
      simpa using this
    rw [h0, ih rest r hne ?_ hm]
    · rfl
    · intro i hi
      have := hnone (i + 1) (by simpa using hi)
      simpa using this

theorem matchField_sound (key : List Char) (allow : Bool) :
    ∀ (s mt v rest : List Char),
      matchField key allow s = some (mt, v, rest) →
      ∃ ws, (∀ c ∈ ws, isJsWs c = true) ∧
        mt = key ++ ws ++ '"' :: (v ++ '"' :: []) ∧
        s = mt ++ rest ∧ (∀ c ∈ v, c ≠ '"') := by
  intro s mt v rest h
  rw [matchField] at h
  by_cases hk : key.isPrefixOf s = true
  case neg =>
    rw [if_neg hk] at h
    exact absurd h (by simp)
  rw [if_pos hk] at h
  simp only at h
  by_cases h2 : ((s.drop key.length).dropWhile isJsWs).head? = some '"'
  case neg =>
    rw [if_neg h2] at h
    exact absurd h (by simp)
  rw [if_pos h2] at h
  by_cases h4 : (((s.drop key.length).dropWhile isJsWs).tail.dropWhile
      (fun c => c ≠ '"')).head? = some '"'
  case neg =>
    rw [if_neg h4] at h
    exact absurd h (by simp)
  rw [if_pos h4] at h
  by_cases h5 : (!allow &&
      (((s.drop key.length).dropWhile isJsWs).tail.takeWhile
        (fun c => c ≠ '"')).isEmpty) = true
  case pos =>
    rw [if_pos h5] at h
    exact absurd h (by simp)
  rw [if_neg h5] at h
  simp only [Option.some.injEq, Prod.mk.injEq] at h
  obtain ⟨h1, hv, hrest⟩ := h
  refine ⟨(s.drop key.length).takeWhile isJsWs, ?_, ?_, ?_, ?_⟩
  · intro c hc
    exact List.mem_takeWhile_imp hc
  · rw [← h1, ← hv]
  · have hs : s = key ++ s.drop key.length := by
      rcases List.isPrefixOf_iff_prefix.mp hk with ⟨u, hu⟩
      rw [← hu, List.drop_left]
    have e1 : (s.drop key.length).takeWhile isJsWs ++
        (s.drop key.length).dropWhile isJsWs = s.drop key.length :=
      List.takeWhile_append_dropWhile _ _
    have e2 : ((s.drop key.length).dropWhile isJsWs).tail.takeWhile
          (fun c => c ≠ '"') ++
        ((s.drop key.length).dropWhile isJsWs).tail.dropWhile
          (fun c => c ≠ '"') =
        ((s.drop key.length).dropWhile isJsWs).tail :=
      List.takeWhile_append_dropWhile _ _
    have e3 : (s.drop key.length).dropWhile isJsWs =
        '"' :: ((s.drop key.length).dropWhile isJsWs).tail :=
      eq_cons_of_head? h2
    have e4 : ((s.drop key.length).dropWhile isJsWs).tail.dropWhile
          (fun c => c ≠ '"') =
        '"' :: (((s.drop key.length).dropWhile isJsWs).tail.dropWhile
          (fun c => c ≠ '"')).tail :=
      eq_cons_of_head? h4
    rw [← h1, ← hrest]
    conv_lhs => rw [hs, ← e1, e3]
    conv_lhs => rw [← e2, e4]
    simp [List.append_assoc]
  · intro c hc
    rw [← hv] at hc
    have := List.mem_takeWhile_imp hc
    simpa using this

theorem matchField_none_of_not_prefix (key : List Char) (allow : Bool)
    (s : List Char) (h : ¬ key <+: s) : matchField key allow s = none := by
  rw [matchField, if_neg]
  intro hk
  exact h (List.isPrefixOf_iff_prefix.mp hk)

theorem dropWhile_mem_head (a : Char) :
    ∀ (l : List Char), a ∈ l →
      (l.dropWhile (fun c => c ≠ a)).head? = some a := by
  intro l
  induction l with
  | nil =>
    intro h
    simp at h
  | cons c t ih =>
    intro h
    by_cases hc : c = a
    · rw [List.dropWhile_cons, if_neg (by simp [hc])]
      simp [hc]
    · rw [List.dropWhile_cons, if_pos (by simp [hc])]
      apply ih
      rcases List.mem_cons.mp h with h1 | h2
      · exact absurd h1.symm hc
      · exact h2

theorem takeWhile_append_all {p : Char → Bool} :
    ∀ (l₁ l₂ : List Char), (∀ c ∈ l₁, p c = true) →
      (l₁ ++ l₂).takeWhile p = l₁ ++ l₂.takeWhile p := by
  intro l₁
  induction l₁ with
  | nil =>
    intro l₂ _
    rfl
  | cons c t ih =>
    intro l₂ h
    rw [List.cons_append, List.takeWhile_cons, if_pos (h c (by simp)),
      ih l₂ (fun x hx => h x (by simp [hx])), List.cons_append]

theorem dropWhile_append_all {p : Char → Bool} :
    ∀ (l₁ l₂ : List Char), (∀ c ∈ l₁, p c = true) →
      (l₁ ++ l₂).dropWhile p = l₂.dropWhile p := by
  intro l₁
  induction l₁ with
  | nil =>
    intro l₂ _
    rfl
  | cons c t ih =>
    intro l₂ h
    rw [List.cons_append, List.dropWhile_cons, if_pos (h c (by simp)),
      ih l₂ (fun x hx => h x (by simp [hx]))]

theorem dropWhile_append_left {p : Char → Bool} :
    ∀ (l₁ l₂ : List Char), l₁.dropWhile p ≠ [] →
      (l₁ ++ l₂).dropWhile p = l₁.dropWhile p ++ l₂ := by
  intro l₁
  induction l₁ with
  | nil =>
    intro l₂ h
    exact absurd rfl h
  | cons c t ih =>
    intro l₂ h
    by_cases hc : p c = true
    · rw [List.cons_append, List.dropWhile_cons, if_pos hc]
      rw [List.dropWhile_cons, if_pos hc] at h ⊢
      exact ih l₂ h
    · rw [List.cons_append, List.dropWhile_cons, if_neg hc,
        List.dropWhile_cons, if_neg hc, List.cons_append]

theorem suffix_within {s x z : List Char} (h : s <:+ x ++ z)
    (hlen : s.length ≤ z.length) : s <:+ z := by
  have h1 : s.reverse <+: z.reverse ++ x.reverse := by
    rw [← List.reverse_append]
    exact List.reverse_prefix.mpr h
  have h2 : s.reverse <+: z.reverse := prefix_within h1 (by simpa using hlen)
  exact List.reverse_prefix.mp h2

theorem authorKey_drop_not_prefix {t : List Char} {c : Char} (k : Nat)
    (h1 : 0 < k) (h2 : k < 7) (ht : t.head? = some c)
    (hc : c = 'a' ∨ c = '\n') : ¬ authorKey.drop k <+: t := by
  intro hp
  have hne : authorKey.drop k ≠ [] := by
    intro he
    have hl := congrArg List.length he
    rw [List.length_drop] at hl
    have h7 : authorKey.length = 7 := rfl
    simp only [List.length_nil] at hl
    omega
  have hht := prefix_head? hp hne
  rw [ht] at hht
  interval_cases k <;> rcases hc with hc | hc <;> rw [hc] at hht <;>
    exact absurd hht (by decide)

theorem fmDelim_drop_not_prefix {t : List Char} {c : Char} (k : Nat)
    (h1 : 0 < k) (h2 : k < 5) (ht : t.head? = some c)
    (hc1 : c ≠ '-') (hc2 : k = 4 → c ≠ '\n') : ¬ fmDelim.drop k <+: t := by
  intro hp
  have hne : fmDelim.drop k ≠ [] := by
    intro he
    have hl := congrArg List.length he
    rw [List.length_drop] at hl
    have h5 : fmDelim.length = 5 := rfl
    simp only [List.length_nil] at hl
    omega
  have hht := prefix_head? hp hne
  rw [ht] at hht
  interval_cases k
  · rw [show (fmDelim.drop 1).head? = some '-' from rfl] at hht
    exact hc1 (Option.some.inj hht)
  · rw [show (fmDelim.drop 2).head? = some '-' from rfl] at hht
    exact hc1 (Option.some.inj hht)
  · rw [show (fmDelim.drop 3).head? = some '-' from rfl] at hht
    exact hc1 (Option.some.inj hht)
  · rw [show (fmDelim.drop 4).head? = some '\n' from rfl] at hht
    exact hc2 rfl (Option.some.inj hht)

theorem fmDelim_take_not_suffix {X : List Char} (k : Nat)
    (h1 : 0 < k) (h2 : k < 5) (hx : X.getLast? = some '"') :
    ¬ fmDelim.take k <:+ X := by
  intro hs
  have hne : fmDelim.take k ≠ [] := by
    intro he
    have hl := congrArg List.length he
    rw [List.length_take] at hl
    have h5 : fmDelim.length = 5 := rfl
    simp only [List.length_nil] at hl
    omega
  have h := suffix_getLast? hs hne
  rw [hx] at h
  interval_cases k <;> exact absurd h (by decide)

theorem fmDelim4_not_suffix_append {X rest fm : List Char}
    (hlast : X.getLast? = some '"') (hrs : rest <:+ fm)
    (hfm : ¬ fmDelim4 <:+ fm) : ¬ fmDelim4 <:+ X ++ rest := by
  intro hs
  rcases le_or_lt fmDelim4.length rest.length with hle | hlt
  · exact hfm ((suffix_within hs hle).trans hrs)
  · have h1 : fmDelim4.reverse <+: rest.reverse ++ X.reverse := by
      rw [← List.reverse_append]
      exact List.reverse_prefix.mpr hs
    obtain ⟨hr, hd⟩ := prefix_spill h1 (by simpa using le_of_lt hlt)
    have hj : rest.length < 4 := by
      have h4 : fmDelim4.length = 4 := rfl
      omega
    have hne : fmDelim4.reverse.drop rest.reverse.length ≠ [] := by
      intro he
      have hl := congrArg List.length he
      rw [List.length_drop] at hl
      simp only [List.length_nil, List.length_reverse] at hl
      omega
    have hh := prefix_head? hd hne
    rw [List.head?_reverse, hlast, List.length_reverse] at hh
    generalize hg : rest.length = j at hh hj
    interval_cases j <;> exact absurd hh (by decide)

theorem authorRepl_ne_nil (a : List Char) : authorRepl a ≠ [] := by
  simp [authorRepl, authorKey]

theorem authorRepl_head (a w : List Char) :
    (authorRepl a ++ w).head? = some 'a' := rfl

theorem authorRepl_getLast (a : List Char) :
    (authorRepl a).getLast? = some '"' := by
  have h : authorRepl a = (authorKey ++ ' ' :: '"' :: a) ++ '"' :: [] := by
    simp [authorRepl, List.append_assoc]
  rw [h, List.getLast?_concat]

theorem authorWordOk_parts {a : List Char} (h : authorWordOk a = true) :
    a ≠ [] ∧ ∀ c ∈ a, authorCharOk c = true := by
  rw [authorWordOk, Bool.and_eq_true] at h
  obtain ⟨h1, h2⟩ := h
  refine ⟨by simpa using h1, ?_⟩
  intro c hc
  simpa using (List.all_eq_true.mp h2) c hc

theorem authorCharOk_ne_quote {c : Char} (h : authorCharOk c = true) :
    c ≠ '"' := by
  intro he
  rw [he] at h
  exact absurd h (by decide)

theorem authorCharOk_ne_newline {c : Char} (h : authorCharOk c = true) :
    c ≠ '\n' := by
  intro he
  rw [he] at h
  exact absurd h (by decide)

theorem newline_not_mem_authorRepl {a : List Char}
    (h : ∀ c ∈ a, authorCharOk c = true) : '\n' ∉ authorRepl a := by
  intro hm
  have hsplit : '\n' ∈ authorKey ++ ' ' :: '"' :: (a ++ '"' :: []) := by
    simpa [authorRepl] using hm
  rw [List.mem_append] at hsplit
  rcases hsplit with h1 | h1
  · exact absurd h1 (by decide)
  rcases List.mem_cons.mp h1 with h2 | h1
  · exact absurd h2 (by decide)
  rcases List.mem_cons.mp h1 with h2 | h1
  · exact absurd h2 (by decide)
  rw [List.mem_append] at h1
  rcases h1 with h2 | h2
  · exact absurd (h '\n' h2) (by decide)
  · rcases List.mem_cons.mp h2 with h3 | h3
    · exact absurd h3 (by decide)
    · simp at h3

theorem jsTrim_fix {l : List Char} (h : jsTrim l = l) :
    l.dropWhile isJsWs = l ∧ l.reverse.dropWhile isJsWs = l.reverse := by
  have hLa : (l.dropWhile isJsWs).length ≤ l.length :=
    (List.dropWhile_sublist _).length_le
  have hLb : ((l.dropWhile isJsWs).reverse.dropWhile isJsWs).length ≤
      (l.dropWhile isJsWs).length := by
    have := (List.dropWhile_sublist (l := (l.dropWhile isJsWs).reverse)
      isJsWs).length_le
    simpa using this
  have hLc : l.length =
      ((l.dropWhile isJsWs).reverse.dropWhile isJsWs).length := by
    conv_lhs => rw [← h]
    simp [jsTrim]
  have e1 : l.dropWhile isJsWs = l :=
    (List.dropWhile_suffix isJsWs).sublist.eq_of_length_le (by omega)
  simp only [jsTrim, e1] at h
  have e3 := congrArg List.reverse h
  rw [List.reverse_reverse] at e3
  exact ⟨e1, e3⟩

theorem jsTrim_wrap {body : List Char} (h : jsTrim body = body) :
    jsTrim ('\n' :: (body ++ '\n' :: [])) = body := by
  obtain ⟨e1, e2⟩ := jsTrim_fix h
  simp only [jsTrim]
  rw [List.dropWhile_cons, if_pos (by decide)]
  cases hb : body with
  | nil => decide
  | cons c t =>
    rw [hb] at e1 e2
    have hc : isJsWs c = false := by
      by_contra hcc
      have hcc' : isJsWs c = true := by
        revert hcc
        cases isJsWs c <;> simp
      rw [List.dropWhile_cons, if_pos hcc'] at e1
      have hl := congrArg List.length e1
      have hle : (t.dropWhile isJsWs).length ≤ t.length :=
        (List.dropWhile_sublist _).length_le
      simp at hl
      omega
    have d1 : ((c :: t) ++ '\n' :: []).dropWhile isJsWs =
        (c :: t) ++ '\n' :: [] := by
      rw [List.cons_append, List.dropWhile_cons, if_neg (by simp [hc])]
    rw [d1, List.reverse_append]
    simp only [List.reverse_cons, List.reverse_nil, List.nil_append,
      List.singleton_append]
    rw [List.dropWhile_cons, if_pos (by decide)]
    rw [List.reverse_cons] at e2
    rw [e2]
    simp

theorem splitFirst_construct (pat : List Char) (hpat : pat ≠ []) :
    ∀ (a b : List Char),
      (∀ i, i < a.length → ¬ pat <+: (a ++ (pat ++ b)).drop i) →
      splitFirst pat (a ++ (pat ++ b)) = some (a, b) := by
  intro a
  induction a with
  | nil =>
    intro b _
    rw [List.nil_append]
    cases hs : pat ++ b with
    | nil => exact absurd (List.append_eq_nil.mp hs).1 hpat
    | cons c t =>
      rw [splitFirst,
        if_pos (by rw [← hs]
                   exact List.isPrefixOf_iff_prefix.mpr (List.prefix_append _ _))]
      rw [← hs, List.drop_left]
  | cons c a' ih =>
    intro b hno
    rw [List.cons_append, splitFirst]
    have h0 : ¬ pat.isPrefixOf (c :: (a' ++ (pat ++ b))) = true := by
      intro hk
      apply hno 0 (by simp)
      rw [List.drop_zero, List.cons_append]
      exact List.isPrefixOf_iff_prefix.mp hk
    have hshift : ∀ i, i < a'.length → ¬ pat <+: (a' ++ (pat ++ b)).drop i := by
      intro i hi hp
      apply hno (i + 1) (by simpa using hi)
      rw [List.cons_append]
      simpa using hp
    rw [if_neg h0, ih b hshift]
    rfl

theorem fmDelim_no_early (a b : List Char) (h1 : ¬ fmDelim <:+: a)
    (h2 : ¬ fmDelim4 <:+ a) :
    ∀ i, i < a.length → ¬ fmDelim <+: (a ++ (fmDelim ++ b)).drop i := by
  intro i hi hp
  rw [List.drop_append_eq_append_drop, Nat.sub_eq_zero_of_le (le_of_lt hi),
    List.drop_zero] at hp
  rcases le_or_lt fmDelim.length (a.drop i).length with hle | hlt
  · exact h1 ((prefix_within hp hle).isInfix.trans (List.drop_suffix i a).isInfix)
  · obtain ⟨heq, hd⟩ := prefix_spill hp (le_of_lt hlt)
    have hlen : 0 < (a.drop i).length := by
      rw [List.length_drop]
      omega
    have hfh : (fmDelim ++ b).head? = some '\n' := rfl
    have h5 : fmDelim.length = 5 := rfl
    by_cases h44 : (a.drop i).length = 4
    · apply h2
      have hsuf := List.drop_suffix i a
      rw [heq, h44] at hsuf
      exact hsuf
    · exact fmDelim_drop_not_prefix (a.drop i).length hlen (by omega) hfh
        (by decide) (fun h4 => absurd h4 h44) hd

theorem matchField_authorRepl (a rest : List Char) (hq : ∀ c ∈ a, c ≠ '"') :
    matchField authorKey true (authorRepl a ++ rest) =
      some (authorRepl a, a, rest) := by
  have hshape : authorRepl a ++ rest =
      authorKey ++ (' ' :: '"' :: (a ++ '"' :: rest)) := by
    simp [authorRepl, List.append_assoc]
  rw [hshape, matchField,
    if_pos (List.isPrefixOf_iff_prefix.mpr (List.prefix_append _ _))]
  simp only
  rw [List.drop_left]
  have hdw : (' ' :: '"' :: (a ++ '"' :: rest)).dropWhile isJsWs =
      '"' :: (a ++ '"' :: rest) := by
    rw [List.dropWhile_cons, if_pos (by decide), List.dropWhile_cons,
      if_neg (by decide)]
  have htw : (' ' :: '"' :: (a ++ '"' :: rest)).takeWhile isJsWs =
      ' ' :: [] := by
    rw [List.takeWhile_cons, if_pos (by decide), List.takeWhile_cons,
      if_neg (by decide)]
  have hc1 : ('"' :: (a ++ '"' :: rest)).head? = some '"' := rfl
  rw [hdw, htw, if_pos hc1]
  simp only [List.tail_cons]
  have hall : ∀ x ∈ a, (fun c => decide (c ≠ '"')) x = true := by
    intro x hx
    simpa using hq x hx
  have htq : (a ++ '"' :: rest).takeWhile (fun c => c ≠ '"') = a := by
    rw [takeWhile_append_all a ('"' :: rest) hall, List.takeWhile_cons,
      if_neg (by decide), List.append_nil]
  have hdq : (a ++ '"' :: rest).dropWhile (fun c => c ≠ '"') = '"' :: rest := by
    rw [dropWhile_append_all a ('"' :: rest) hall, List.dropWhile_cons,
      if_neg (by decide)]
  have hc2 : (('"' : Char) :: rest).head? = some '"' := rfl
  rw [htq, hdq, if_pos hc2, if_neg (by simp)]
  simp [authorRepl, List.append_assoc]

theorem matchField_none_transfer {u v v' w : List Char}
    (hu : u ≠ []) (hv' : authorKey <+: v')
    (hq : '"' ∈ v)
    (h : matchField authorKey true (u ++ (v ++ w)) = none) :
    matchField authorKey true (u ++ (v' ++ w)) = none := by
  by_cases hpre : authorKey <+: u ++ (v' ++ w)
  case neg => exact matchField_none_of_not_prefix _ _ _ hpre
  rcases le_or_lt authorKey.length u.length with hle | hlt
  · obtain ⟨u2, hu2⟩ := prefix_within hpre hle
    rcases hd : u2.dropWhile isJsWs with _ | ⟨c, d2⟩
    · have hall : ∀ x ∈ u2, isJsWs x = true := by
        intro x hx
        simpa using (List.dropWhile_eq_nil_iff.mp hd) x hx
      have hs' : u ++ (v' ++ w) = authorKey ++ (u2 ++ (v' ++ w)) := by
        rw [← hu2]
        simp [List.append_assoc]
      rw [hs', matchField,
        if_pos (List.isPrefixOf_iff_prefix.mpr (List.prefix_append _ _))]
      simp only
      rw [List.drop_left]
      have hvh : (v' ++ w).head? = some 'a' := by
        rw [prefix_head? (hv'.trans (List.prefix_append _ _)) (by decide)]
        rfl
      rw [dropWhile_append_all u2 (v' ++ w) hall]
      have hred : ((v' ++ w).dropWhile isJsWs).head? = some 'a' := by
        obtain ⟨tl, htl⟩ : ∃ tl, v' ++ w = 'a' :: tl :=
          ⟨(v' ++ w).tail, eq_cons_of_head? hvh⟩
        rw [htl, List.dropWhile_cons, if_neg (by decide)]
        rfl
      have hcond : ¬ ((v' ++ w).dropWhile isJsWs).head? = some '"' := by
        rw [hred]
        intro hx
        exact absurd (Option.some.inj hx) (by decide)
      rw [if_neg hcond]
    · by_cases hcq : c = '"'
      · exfalso
        subst hcq
        have hs1 : u ++ (v ++ w) = authorKey ++ (u2 ++ (v ++ w)) := by
          rw [← hu2]
          simp [List.append_assoc]
        rw [hs1, matchField,
          if_pos (List.isPrefixOf_iff_prefix.mpr (List.prefix_append _ _))] at h
        simp only at h
        rw [List.drop_left] at h
        have hda := dropWhile_append_left u2 (v ++ w) (by rw [hd]; simp)
        rw [hd] at hda
        have hcond : ('"' :: (d2 ++ (v ++ w))).head? = some '"' := rfl
        rw [hda, List.cons_append, if_pos hcond] at h
        simp only [List.tail_cons] at h
        have hqm : ((d2 ++ (v ++ w)).dropWhile (fun x => x ≠ '"')).head? =
            some '"' := by
          apply dropWhile_mem_head
          simp [hq]
        rw [if_pos hqm, if_neg (by simp)] at h
        exact absurd h (by simp)
      · have hs' : u ++ (v' ++ w) = authorKey ++ (u2 ++ (v' ++ w)) := by
          rw [← hu2]
          simp [List.append_assoc]
        rw [hs', matchField,
          if_pos (List.isPrefixOf_iff_prefix.mpr (List.prefix_append _ _))]
        simp only
        rw [List.drop_left]
        have hda := dropWhile_append_left u2 (v' ++ w) (by rw [hd]; simp)
        rw [hd] at hda
        rw [hda, List.cons_append]
        have hcond : ¬ ((c :: (d2 ++ (v' ++ w))).head? = some '"') := by
          intro hh
          exact hcq (Option.some.inj hh)
        rw [if_neg hcond]
  · exfalso
    obtain ⟨hueq, hdk⟩ := prefix_spill hpre (le_of_lt hlt)
    have hh : (v' ++ w).head? = some 'a' := by
      rw [prefix_head? (hv'.trans (List.prefix_append _ _)) (by decide)]
      rfl
    have h7 : authorKey.length = 7 := rfl
    exact authorKey_drop_not_prefix u.length
      (List.length_pos_of_ne_nil hu) (by omega) hh (Or.inl rfl) hdk
theorem buildMdxFm_author_branch {fm author pre mt v rest : List Char}
    (hsf : scanFind (matchField authorKey true) fm = some (pre, (mt, v, rest)))
    (hca : containsSub authorKey fm = true)
    (hok : authorWordOk author = true)
    (hfm1 : ¬ fmDelim <:+: fm) (hfm2 : ¬ fmDelim4 <:+ fm) :
    buildMdxFm fm author = pre ++ (authorRepl author ++ rest) ∧
    ¬ fmDelim <:+: pre ++ (authorRepl author ++ rest) ∧
    ¬ fmDelim4 <:+ pre ++ (authorRepl author ++ rest) ∧
    extractAuthorValue (pre ++ (authorRepl author ++ rest)) = some author := by
  obtain ⟨hne, hmem⟩ := authorWordOk_parts hok
  have hbuild : buildMdxFm fm author = pre ++ (authorRepl author ++ rest) := by
    rw [buildMdxFm, if_neg hne, if_pos hca, scanReplace, hsf]
    simp [List.append_assoc]
  obtain ⟨rest1, hfm_eq, hmf, hnone⟩ := scanFind_sound _ fm pre (mt, v, rest) hsf
  obtain ⟨ws, hws, hmt, hrest1, hvq⟩ :=
    matchField_sound authorKey true rest1 mt v rest hmf
  have hfm_eq2 : fm = pre ++ (mt ++ rest) := by rw [hfm_eq, hrest1]
  have hquote_notin : ∀ c ∈ author, c ≠ '"' :=
    fun c hc => authorCharOk_ne_quote (hmem c hc)
  have hmfa := matchField_authorRepl author rest hquote_notin
  have hkey_mt : authorKey <+: mt := by
    have he : authorKey ++ (ws ++ '"' :: (v ++ '"' :: [])) = mt := by
      rw [hmt]
      simp [List.append_assoc]
    exact ⟨_, he⟩
  have hq_mt : '"' ∈ mt := by
    rw [hmt]
    simp
  have hnone' : ∀ i, i < pre.length →
      matchField authorKey true
        ((pre ++ (authorRepl author ++ rest)).drop i) = none := by
    intro i hi
    have hdi : (pre ++ (authorRepl author ++ rest)).drop i =
        pre.drop i ++ (authorRepl author ++ rest) := by
      rw [List.drop_append_eq_append_drop, Nat.sub_eq_zero_of_le (le_of_lt hi),
        List.drop_zero]
    rw [hdi]
    have hsrc := hnone i hi
    have hdi2 : fm.drop i = pre.drop i ++ (mt ++ rest) := by
      rw [hfm_eq2, List.drop_append_eq_append_drop,
        Nat.sub_eq_zero_of_le (le_of_lt hi), List.drop_zero]
    rw [hdi2] at hsrc
    have hune : pre.drop i ≠ [] := by
      intro he
      have hl := congrArg List.length he
      rw [List.length_drop] at hl
      simp only [List.length_nil] at hl
      omega
    exact matchField_none_transfer hune ⟨_, rfl⟩ hq_mt hsrc
  have hsfind : scanFind (matchField authorKey true)
      (pre ++ (authorRepl author ++ rest)) =
      some (pre, (authorRepl author, author, rest)) :=
    scanFind_build _ pre (authorRepl author ++ rest) _
      (by simp [authorRepl, authorKey]) hnone' hmfa
  have hP3 : extractAuthorValue (pre ++ (authorRepl author ++ rest)) =
      some author := by
    rw [extractAuthorValue, hsfind]
  have hpre_fm : pre <+: fm := ⟨mt ++ rest, hfm_eq2.symm⟩
  have hrest_fm : rest <:+ fm := ⟨pre ++ mt, by rw [hfm_eq2]; simp [List.append_assoc]⟩
  have hd1 : ¬ fmDelim <:+: pre := fun hin => hfm1 (hin.trans hpre_fm.isInfix)
  have hd2 : ¬ fmDelim <:+: rest := fun hin => hfm1 (hin.trans hrest_fm.isInfix)
  have hnlm : '\n' ∉ authorRepl author := newline_not_mem_authorRepl hmem
  have hd3 : ¬ fmDelim <:+: authorRepl author :=
    not_infix_of_not_mem (by decide) hnlm
  have hlast : (authorRepl author).getLast? = some '"' := authorRepl_getLast author
  have h5 : fmDelim.length = 5 := rfl
  have hd4 : ¬ fmDelim <:+: (authorRepl author ++ rest) := by
    apply not_infix_append fmDelim (authorRepl author) rest hd3 hd2
    intro k hk1 hk2 hand
    exact fmDelim_take_not_suffix k hk1 (by omega) hlast hand.1
  have hP1 : ¬ fmDelim <:+: pre ++ (authorRepl author ++ rest) := by
    apply not_infix_append fmDelim pre (authorRepl author ++ rest) hd1 hd4
    intro k hk1 hk2 hand
    exact fmDelim_drop_not_prefix k hk1 (by omega) (authorRepl_head author rest)
      (by decide) (fun _ => by decide) hand.2
  have hP2 : ¬ fmDelim4 <:+ pre ++ (authorRepl author ++ rest) := by
    have hassoc : pre ++ (authorRepl author ++ rest) =
        (pre ++ authorRepl author) ++ rest := by
      simp [List.append_assoc]
    rw [hassoc]
    apply fmDelim4_not_suffix_append ?_ hrest_fm hfm2
    have hg : (pre ++ authorRepl author).getLast? =
        (authorRepl author).getLast? :=
      List.getLast?_append_of_ne_nil _ (authorRepl_ne_nil author)
    rw [hg]
    exact hlast
  exact ⟨hbuild, hP1, hP2, hP3⟩

theorem buildMdxFm_title_branch {fm author pre mt v rest : List Char}
    (hsf : scanFind (matchField titleKey true) fm = some (pre, (mt, v, rest)))
    (hca : containsSub authorKey fm = false)
    (hok : authorWordOk author = true)
    (hfm1 : ¬ fmDelim <:+: fm) (hfm2 : ¬ fmDelim4 <:+ fm) :
    buildMdxFm fm author = pre ++ ((mt ++ '\n' :: authorRepl author) ++ rest) ∧
    ¬ fmDelim <:+: pre ++ ((mt ++ '\n' :: authorRepl author) ++ rest) ∧
    ¬ fmDelim4 <:+ pre ++ ((mt ++ '\n' :: authorRepl author) ++ rest) ∧
    extractAuthorValue (pre ++ ((mt ++ '\n' :: authorRepl author) ++ rest)) =
      some author := by
  obtain ⟨hne, hmem⟩ := authorWordOk_parts hok
  have hbuild : buildMdxFm fm author =
      pre ++ ((mt ++ '\n' :: authorRepl author) ++ rest) := by
    rw [buildMdxFm, if_neg hne, if_neg (by simp [hca]), scanReplace, hsf]
    simp [List.append_assoc]
  obtain ⟨rest1, hfm_eq, hmf, hnone⟩ := scanFind_sound _ fm pre (mt, v, rest) hsf
  obtain ⟨ws, hws, hmt, hrest1, hvq⟩ :=
    matchField_sound titleKey true rest1 mt v rest hmf
  have hfm_eq2 : fm = pre ++ (mt ++ rest) := by rw [hfm_eq, hrest1]
  have hnoauth : ¬ authorKey <:+: fm := by
    intro hin
    have hsome := (splitFirst_isSome_iff authorKey fm).mpr hin
    rw [containsSub, hsome] at hca
    exact absurd hca (by decide)
  have hquote_notin : ∀ c ∈ author, c ≠ '"' :=
    fun c hc => authorCharOk_ne_quote (hmem c hc)
  have hmfa := matchField_authorRepl author rest hquote_notin
  have hpre_fm : pre <+: fm := ⟨mt ++ rest, hfm_eq2.symm⟩
  have hrest_fm : rest <:+ fm :=
    ⟨pre ++ mt, by rw [hfm_eq2]; simp [List.append_assoc]⟩
  have hpm_fm : (pre ++ mt) <+: fm :=
    ⟨rest, by rw [hfm_eq2]; simp [List.append_assoc]⟩
  have hmt_infix : mt <:+: fm :=
    ⟨pre, rest, by rw [hfm_eq2]; simp [List.append_assoc]⟩
  have hmt_head : mt.head? = some 't' := by
    rw [hmt]
    rfl
  have hmt_last : mt.getLast? = some '"' := by
    have hsh : mt = (titleKey ++ ws ++ '"' :: v) ++ '"' :: [] := by
      rw [hmt]
      simp [List.append_assoc]
    rw [hsh, List.getLast?_concat]
  have h5 : fmDelim.length = 5 := rfl
  have h7 : authorKey.length = 7 := rfl
  have hd1 : ¬ fmDelim <:+: pre := fun hin => hfm1 (hin.trans hpre_fm.isInfix)
  have hd2 : ¬ fmDelim <:+: rest := fun hin => hfm1 (hin.trans hrest_fm.isInfix)
  have hdmt : ¬ fmDelim <:+: mt := fun hin => hfm1 (hin.trans hmt_infix)
  have hnlm : '\n' ∉ authorRepl author := newline_not_mem_authorRepl hmem
  have hd_nl : ¬ fmDelim <:+: ('\n' :: authorRepl author) := by
    apply not_infix_of_count (c := '\n')
    have hc0 : (authorRepl author).count '\n' = 0 := List.count_eq_zero.mpr hnlm
    have hc1 : ('\n' :: authorRepl author).count '\n' =
        (authorRepl author).count '\n' + 1 := by
      simp [List.count_cons]
    have hc2 : fmDelim.count '\n' = 2 := by decide
    omega
  have hR_last : (mt ++ '\n' :: authorRepl author).getLast? = some '"' := by
    rw [List.getLast?_append_of_ne_nil _ (List.cons_ne_nil _ _),
      getLast?_cons_of_ne_nil (authorRepl_ne_nil author)]
    exact authorRepl_getLast author
  have hdR : ¬ fmDelim <:+: (mt ++ '\n' :: authorRepl author) := by
    apply not_infix_append fmDelim mt ('\n' :: authorRepl author) hdmt hd_nl
    intro k hk1 hk2 hand
    exact fmDelim_take_not_suffix k hk1 (by omega) hmt_last hand.1
  have hd5 : ¬ fmDelim <:+: ((mt ++ '\n' :: authorRepl author) ++ rest) := by
    apply not_infix_append fmDelim (mt ++ '\n' :: authorRepl author) rest hdR hd2
    intro k hk1 hk2 hand
    exact fmDelim_take_not_suffix k hk1 (by omega) hR_last hand.1
  have hR_head : ((mt ++ '\n' :: authorRepl author) ++ rest).head? = some 't' := by
    obtain ⟨tl, htl⟩ : ∃ tl, mt = 't' :: tl := ⟨mt.tail, eq_cons_of_head? hmt_head⟩
    rw [htl]
    rfl
  have hP1 : ¬ fmDelim <:+: pre ++ ((mt ++ '\n' :: authorRepl author) ++ rest) := by
    apply not_infix_append fmDelim pre
      ((mt ++ '\n' :: authorRepl author) ++ rest) hd1 hd5
    intro k hk1 hk2 hand
    exact fmDelim_drop_not_prefix k hk1 (by omega) hR_head
      (by decide) (fun _ => by decide) hand.2
  have hP2 : ¬ fmDelim4 <:+ pre ++ ((mt ++ '\n' :: authorRepl author) ++ rest) := by
    have hassoc : pre ++ ((mt ++ '\n' :: authorRepl author) ++ rest) =
        (pre ++ (mt ++ '\n' :: authorRepl author)) ++ rest := by
      simp [List.append_assoc]
    rw [hassoc]
    apply fmDelim4_not_suffix_append ?_ hrest_fm hfm2
    have hg : (pre ++ (mt ++ '\n' :: authorRepl author)).getLast? =
        (mt ++ '\n' :: authorRepl author).getLast? :=
      List.getLast?_append_of_ne_nil _ (by simp)
    rw [hg]
    exact hR_last
  have hshape2 : pre ++ ((mt ++ '\n' :: authorRepl author) ++ rest) =
      (pre ++ (mt ++ '\n' :: [])) ++ (authorRepl author ++ rest) := by
    simp [List.append_assoc]
  have hnoauth_pm : ¬ authorKey <:+: (pre ++ mt) :=
    fun hin => hnoauth (hin.trans hpm_fm.isInfix)
  have hnone' : ∀ i, i < (pre ++ (mt ++ '\n' :: [])).length →
      matchField authorKey true
        (((pre ++ (mt ++ '\n' :: [])) ++ (authorRepl author ++ rest)).drop i) =
        none := by
    intro i hi
    apply matchField_none_of_not_prefix
    intro hp
    rw [List.drop_append_eq_append_drop, Nat.sub_eq_zero_of_le (le_of_lt hi),
      List.drop_zero] at hp
    rcases le_or_lt authorKey.length ((pre ++ (mt ++ '\n' :: [])).drop i).length
      with hle | hlt
    · have hik : authorKey <+: (pre ++ (mt ++ '\n' :: [])).drop i :=
        prefix_within hp hle
      have hin : authorKey <:+: (pre ++ (mt ++ '\n' :: [])) :=
        hik.isInfix.trans (List.drop_suffix i (pre ++ (mt ++ '\n' :: []))).isInfix
      have hin2 : authorKey <:+: ((pre ++ mt) ++ '\n' :: []) := by
        have he : pre ++ (mt ++ '\n' :: []) = (pre ++ mt) ++ '\n' :: [] := by
          simp [List.append_assoc]
        rw [← he]
        exact hin
      revert hin2
      apply not_infix_append authorKey (pre ++ mt) ('\n' :: []) hnoauth_pm
      · intro hin3
        obtain ⟨s, t, hst⟩ := hin3
        have hl := congrArg List.length hst
        simp [authorKey] at hl
        omega
      · intro k hk1 hk2 hand
        exact authorKey_drop_not_prefix k hk1 (by omega)
          (show (('\n' : Char) :: []).head? = some '\n' from rfl)
          (Or.inr rfl) hand.2
    · obtain ⟨hueq, hdk⟩ := prefix_spill hp (le_of_lt hlt)
      have hpos : 0 < ((pre ++ (mt ++ '\n' :: [])).drop i).length := by
        rw [List.length_drop]
        omega
      exact authorKey_drop_not_prefix _ hpos (by omega)
        (authorRepl_head author rest) (Or.inl rfl) hdk
  have hsfind : scanFind (matchField authorKey true)
      ((pre ++ (mt ++ '\n' :: [])) ++ (authorRepl author ++ rest)) =
      some (pre ++ (mt ++ '\n' :: []), (authorRepl author, author, rest)) :=
    scanFind_build _ (pre ++ (mt ++ '\n' :: [])) (authorRepl author ++ rest) _
      (by simp [authorRepl, authorKey]) hnone' hmfa
  have hP3 : extractAuthorValue (pre ++ ((mt ++ '\n' :: authorRepl author) ++ rest)) =
      some author := by
    rw [extractAuthorValue, hshape2, hsfind]
  exact ⟨hbuild, hP1, hP2, hP3⟩
/-- C6 (amended): the rewrite round-trip of the refinement script holds
under the conditions the code actually guarantees.  `parseMdx` trims the
body it returns, so the new body must be trim-stable; and the author patch
of `buildMdx` only lands when the frontmatter exposes an `author:` or
`title:` field (`fmPatchable`).  Under these hypotheses — original parses,
frontmatter patchable, author a plain word, new body trim-stable — parsing
`buildMdx fm newBody author` yields the patched frontmatter together with a
body equal to `newBody`, and the patched frontmatter's first `author:` field
carries exactly the injected value. -/
theorem C6_rewrite_roundtrip_amended
    (original fm body0 newBody author : List Char)
    (hparse : parseMdx original = some (fm, body0))
    (hpatch : fmPatchable fm)
    (hauthor : authorWordOk author = true)
    (hbody : jsTrim newBody = newBody) :
    parseMdx (buildMdx fm newBody author) =
      some (buildMdxFm fm author, newBody) ∧
    extractAuthorValue (buildMdxFm fm author) = some author := by
  rw [parseMdx] at hparse
  by_cases hop : fmOpen.isPrefixOf original = true
  case neg =>
    rw [if_neg hop] at hparse
    exact absurd hparse (by simp)
  rw [if_pos hop] at hparse
  rcases hsf0 : splitFirst fmDelim (original.drop 4) with _ | ⟨fm', rest0⟩
  · rw [hsf0] at hparse
    simp at hparse
  · rw [hsf0] at hparse
    simp only [Option.some.injEq, Prod.mk.injEq] at hparse
    obtain ⟨hfm', _⟩ := hparse
    rw [hfm'] at hsf0
    have hfm1 : ¬ fmDelim <:+: fm :=
      splitFirst_pre_not_infix fmDelim (original.drop 4) fm rest0 (by decide) hsf0
    have hfm2 : ¬ fmDelim4 <:+ fm :=
      splitFirst_pre_not_fmDelim4_suffix (original.drop 4) fm rest0 hsf0
    have hkey : ∃ patched, buildMdxFm fm author = patched ∧
        ¬ fmDelim <:+: patched ∧ ¬ fmDelim4 <:+ patched ∧
        extractAuthorValue patched = some author := by
      rcases hpatch with hA | ⟨hcaF, hT⟩
      · rcases Option.isSome_iff_exists.mp hA with ⟨⟨pre, mt, v, rest⟩, hsf⟩
        have hca : containsSub authorKey fm = true := by
          obtain ⟨rest1, hfmeq, hmf, _⟩ :=
            scanFind_sound _ fm pre (mt, v, rest) hsf
          obtain ⟨ws, _, hmt, hr1, _⟩ :=
            matchField_sound authorKey true rest1 mt v rest hmf
          rw [containsSub, splitFirst_isSome_iff]
          exact ⟨pre, ws ++ '"' :: (v ++ '"' :: []) ++ rest, by
            rw [hfmeq, hr1, hmt]
            simp [List.append_assoc]⟩
        obtain ⟨hb, h1, h2, h3⟩ :=
          buildMdxFm_author_branch hsf hca hauthor hfm1 hfm2
        exact ⟨_, hb, h1, h2, h3⟩
      · rcases Option.isSome_iff_exists.mp hT with ⟨⟨pre, mt, v, rest⟩, hsf⟩
        obtain ⟨hb, h1, h2, h3⟩ :=
          buildMdxFm_title_branch hsf hcaF hauthor hfm1 hfm2
        exact ⟨_, hb, h1, h2, h3⟩
    obtain ⟨patched, hpe, hp1, hp2, hp3⟩ := hkey
    constructor
    · rw [buildMdx, hpe]
      have hassoc :
          fmOpen ++ patched ++ fmDelim ++ '\n' :: (newBody ++ '\n' :: []) =
          fmOpen ++ (patched ++ (fmDelim ++ '\n' :: (newBody ++ '\n' :: []))) := by
        simp [List.append_assoc]
      rw [hassoc, parseMdx,
        if_pos (List.isPrefixOf_iff_prefix.mpr (List.prefix_append _ _))]
      have hdrop :
          (fmOpen ++ (patched ++ (fmDelim ++ '\n' :: (newBody ++ '\n' :: [])))).drop 4 =
          patched ++ (fmDelim ++ '\n' :: (newBody ++ '\n' :: [])) := rfl
      rw [hdrop, splitFirst_construct fmDelim (by decide) patched
        ('\n' :: (newBody ++ '\n' :: []))
        (fmDelim_no_early patched ('\n' :: (newBody ++ '\n' :: [])) hp1 hp2)]
      show some (patched, jsTrim ('\n' :: (newBody ++ '\n' :: []))) =
        some (patched, newBody)
      rw [jsTrim_wrap hbody]
    · rw [hpe]
      exact hp3

/-- C6 counterexample: the round-trip fails without the amendments.  The
frontmatter `foo: 1` parses fine but has neither an `author:` nor a `title:`
field, and the new body ` x` has leading whitespace; rebuilding and
re-parsing returns the body `x` (trimmed, not equal to the injected ` x`)
and a header with no author field at all, refuting the claim that the
round-trip holds for every parsed original, every new body and every
author value. -/
theorem C6_counterexample :
    parseMdx (String.data "---\nfoo: 1\n---\nold") =
      some (String.data "foo: 1", String.data "old") ∧
    parseMdx (buildMdx (String.data "foo: 1") (String.data " x")
        (String.data "murad")) =
      some (String.data "foo: 1", String.data "x") ∧
    String.data "x" ≠ String.data " x" ∧
    extractAuthorValue (String.data "foo: 1") = none := by
  decide

/-- C6 witness: a concrete round-trip through the amended theorem — a
frontmatter with a quoted title, the author `sara` and the trim-stable body
`new body` parse back exactly as injected. -/
theorem C6_rewrite_roundtrip_amended_witness :
    (parseMdx (String.data "---\ntitle: \"T\"\n---\nold") =
      some (String.data "title: \"T\"", String.data "old")) ∧
    fmPatchable (String.data "title: \"T\"") ∧
    authorWordOk (String.data "sara") = true ∧
    jsTrim (String.data "new body") = String.data "new body" ∧
    (parseMdx (buildMdx (String.data "title: \"T\"") (String.data "new body")
        (String.data "sara")) =
      some (buildMdxFm (String.data "title: \"T\"") (String.data "sara"),
        String.data "new body") ∧
    extractAuthorValue (buildMdxFm (String.data "title: \"T\"")
        (String.data "sara")) = some (String.data "sara")) :=
  ⟨by decide, Or.inr ⟨by decide, by decide⟩, by decide, by decide,
    C6_rewrite_roundtrip_amended (String.data "---\ntitle: \"T\"\n---\nold")
      (String.data "title: \"T\"") (String.data "old")
      (String.data "new body") (String.data "sara")
      (by decide) (Or.inr ⟨by decide, by decide⟩) (by decide) (by decide)⟩

/-- C10: `buildMdx` never invents an author field.  When the frontmatter
matches neither the `author:\s*"[^"]*"` regex nor the `title:\s*"[^"]*"`
regex, both replace calls are no-ops, so the rebuilt header block is the
input frontmatter verbatim, for every author argument (in particular every
non-empty one) and every body. -/
theorem C10_no_field_no_insert (fm body author : List Char)
    (h1 : scanFind (matchField authorKey true) fm = none)
    (h2 : scanFind (matchField titleKey true) fm = none) :
    buildMdxFm fm author = fm ∧
    buildMdx fm body author =
      fmOpen ++ fm ++ fmDelim ++ '\n' :: (body ++ '\n' :: []) := by
  have hfm : buildMdxFm fm author = fm := by
    rw [buildMdxFm]
    by_cases ha : author = []
    · rw [if_pos ha]
    · rw [if_neg ha]
      by_cases hc : containsSub authorKey fm = true
      · rw [if_pos hc, scanReplace, h1]
      · rw [if_neg hc, scanReplace, h2]
  exact ⟨hfm, by rw [buildMdx, hfm]⟩

/-- C10 witness: the frontmatter `foo: 1` has neither field, and the header
rebuilt with the non-empty author `m` is unchanged. -/
theorem C10_no_field_no_insert_witness :
    scanFind (matchField authorKey true) (String.data "foo: 1") = none ∧
    scanFind (matchField titleKey true) (String.data "foo: 1") = none ∧
    buildMdxFm (String.data "foo: 1") (String.data "m") =
      String.data "foo: 1" :=
  ⟨by decide, by decide,
    (C10_no_field_no_insert (String.data "foo: 1") (String.data "b")
      (String.data "m") (by decide) (by decide)).1⟩
/-- C4 counterexample: with fifteen known names, a name skipped in the
current round does not appear in the suggestion prompt at all, refuting the
claim that every skipped name of the round is seeded into the prompt
regardless of how many known names exist. -/
theorem C4_counterexample :
    "Missed Cafe" ∈ (["Missed Cafe"] : List String) ∧
    ¬ ("Missed Cafe".data <:+:
        suggestNewQueryPrompt "laptop cafes madrid"
          (mainSuggestNames knownFifteen ["Missed Cafe"])) := by
  refine ⟨by simp, ?_⟩
  intro hin
  have hs := (splitFirst_isSome_iff ("Missed Cafe".data)
    (suggestNewQueryPrompt "laptop cafes madrid"
      (mainSuggestNames knownFifteen ["Missed Cafe"]))).mpr hin
  have hnone : splitFirst ("Missed Cafe".data)
      (suggestNewQueryPrompt "laptop cafes madrid"
        (mainSuggestNames knownFifteen ["Missed Cafe"])) = none := by decide
  rw [hnone] at hs
  exact absurd hs (by decide)

end Casilocal
